import Mathlib

/-!
Verification development for the EngageHub C++ analytics engines
(`cpp_extensions/event_processor` and `cpp_extensions/leaderboard`).

The C++ sources are shallowly embedded as executable Lean definitions:

* machine 64-bit unsigned arithmetic is `Nat` reduced modulo `2 ^ 64`
  (`w64`) exactly where the C++ type `std::uint64_t` can wrap;
* `std::string` keys and ids are Lean `String`s compared byte-wise by the
  executable `strLtB` (mirroring `std::string::operator<`); the ids used in
  concrete instances are ASCII, where Lean characters coincide with bytes;
* `double` scores are modelled by a generic decidable linear order `σ`
  (instantiated at `Int` in concrete witnesses).  This models the IEEE
  ordering on the ordinary (non-NaN, finite) doubles the spec's data model
  deals in; `std::pow` and `std::stod` are passed in as explicit function
  parameters where a component calls into the C or C++ standard library;
* fallible constructors and file operations return `Except`/`Option`;
* the pseudo-random tower level of the skip list (`std::mt19937_64`) and
  the ambient clock are universally quantified oracle inputs.
-/

namespace EngageHub

/-- Machine `std::uint64_t` wraparound: reduce modulo `2 ^ 64`. -/
def w64 (x : Nat) : Nat := x % (2 ^ 64)

/-- Byte-wise lexicographic comparison of character lists, mirroring
`std::string::operator<` (`std::lexicographical_compare` over bytes). -/
def strLtB : List Char → List Char → Bool
  | [], [] => false
  | [], _ :: _ => true
  | _ :: _, [] => false
  | a :: as, b :: bs => if a < b then true else if b < a then false else strLtB as bs

/-- Comparison of ids as done by `lhs->user_id < user_id` in the C++. -/
def strLt (s t : String) : Bool := strLtB s.data t.data

/-! ## Time decay (`leaderboard/src/time_decay.cpp`) -/

/-- State of `TimeDecay`: the stored decay factor. -/
structure TimeDecay where
  decay_factor : ℚ
deriving Repr, DecidableEq

/-- The `TimeDecay` constructor: validates `decay_factor ∈ (0, 1]`, else
throws `std::invalid_argument`. -/
def TimeDecay.init (decay_factor : ℚ) : Except String TimeDecay :=
  if decay_factor ≤ 0 ∨ 1 < decay_factor then
    Except.error "Decay factor must be in (0, 1]"
  else
    Except.ok ⟨decay_factor⟩

/-- `TimeDecay::apply`.  `powF` is the explicit stand-in for `std::pow`
(the exponent is computed in floating point by libm in the C++). -/
def TimeDecay.apply (td : TimeDecay) (powF : ℚ → ℚ → ℚ)
    (base_score : ℚ) (last_update_timestamp current_timestamp : Int) : ℚ :=
  if current_timestamp ≤ last_update_timestamp then base_score
  else
    let delta : ℚ := ((current_timestamp - last_update_timestamp : Int) : ℚ)
    let days : ℚ := delta / 86400
    if days ≤ 0 then base_score
    else base_score * powF td.decay_factor days

/-! ## MurmurHash3 x64 128→64 fold (static `murmurhash3_64` in
`count_min_sketch.cpp` and `hyperloglog.cpp`; identical in both).
Keys are byte lists (`std::string::data()` bytes). -/

/-- `rotl64`. -/
def rotl64 (x r : Nat) : Nat := ((x <<< r) % (2 ^ 64)) ||| (x >>> (64 - r))

/-- `fmix64`. -/
def fmix64 (k : Nat) : Nat :=
  let k1 := k ^^^ (k >>> 33)
  let k2 := w64 (k1 * 0xff51afd7ed558ccd)
  let k3 := k2 ^^^ (k2 >>> 33)
  let k4 := w64 (k3 * 0xc4ceb9fe1a85ec53)
  k4 ^^^ (k4 >>> 33)

/-- Little-endian read of up to eight bytes (the `blocks[i]` loads and the
byte-by-byte tail accumulation both produce exactly this value). -/
def le64 : List Nat → Nat
  | [] => 0
  | b :: bs => b + 256 * le64 bs

/-- First Murmur block constant. -/
def murmurC1 : Nat := 0x87c37b91114253d5

/-- Second Murmur block constant. -/
def murmurC2 : Nat := 0x4cf5ad432745937f

/-- The 16-byte block loop of `murmurhash3_64`, consuming `nblocks` blocks. -/
def murmurBody (nblocks : Nat) (bytes : List Nat) (h1 h2 : Nat) : Nat × Nat :=
  match nblocks with
  | 0 => (h1, h2)
  | n + 1 =>
    let k1 := le64 (bytes.take 8)
    let k2 := le64 ((bytes.drop 8).take 8)
    let k1m := w64 (rotl64 (w64 (k1 * murmurC1)) 31 * murmurC2)
    let h1a := h1 ^^^ k1m
    let h1b := rotl64 h1a 27
    let h1c := w64 (h1b + h2)
    let h1d := w64 (h1c * 5 + 0x52dce729)
    let k2m := w64 (rotl64 (w64 (k2 * murmurC2)) 33 * murmurC1)
    let h2a := h2 ^^^ k2m
    let h2b := rotl64 h2a 31
    let h2c := w64 (h2b + h1d)
    let h2d := w64 (h2c * 5 + 0x38495ab5)
    murmurBody n (bytes.drop 16) h1d h2d

/-- The tail `switch` of `murmurhash3_64`.  Bytes `tail[8..14]` accumulate
into `k2` (mixed into `h2` only when `len & 15 ≥ 9`) and bytes
`tail[0..7]` into `k1` (mixed when `len & 15 ≥ 1`); an untouched
accumulator is zero and its mix is the identity, matching the
fallthrough structure. -/
def murmurTail (tail : List Nat) (h1 h2 : Nat) : Nat × Nat :=
  let k2 := le64 (tail.drop 8)
  let h2t := if 9 ≤ tail.length then
      h2 ^^^ w64 (rotl64 (w64 (k2 * murmurC2)) 33 * murmurC1)
    else h2
  let k1 := le64 (tail.take 8)
  let h1t := if 1 ≤ tail.length then
      h1 ^^^ w64 (rotl64 (w64 (k1 * murmurC1)) 31 * murmurC2)
    else h1
  (h1t, h2t)

/-- `murmurhash3_64(key, len, seed)`: the x64 128-bit MurmurHash3 whose two
halves are folded by the final addition (`h1 += h2; return h1`). -/
def murmurhash3_64 (data : List Nat) (seed : Nat) : Nat :=
  let len := data.length
  let nblocks := len / 16
  let bh := murmurBody nblocks data (w64 seed) (w64 seed)
  let th := murmurTail (data.drop (nblocks * 16)) bh.1 bh.2
  let h1a := th.1 ^^^ w64 len
  let h2a := th.2 ^^^ w64 len
  let h1b := w64 (h1a + h2a)
  let h2b := w64 (h2a + h1b)
  let h1c := fmix64 h1b
  let h2c := fmix64 h2b
  w64 (h1c + h2c)

/-! ## Count-Min Sketch (`event_processor/src/count_min_sketch.cpp`) -/

/-- State of `CountMinSketch`: `table` is the row-major `depth × width`
counter array of `std::uint64_t`. -/
structure CountMinSketch where
  width : Nat
  depth : Nat
  seed : Nat
  table : List Nat
deriving Repr, DecidableEq

/-- The `CountMinSketch` constructor with its two validation throws.
`(width & (width - 1)) != 0` is the code's power-of-two test; note that it
accepts `width == 0`. -/
def CountMinSketch.init (width depth seed : Nat) : Except String CountMinSketch :=
  if width &&& (width - 1) ≠ 0 then
    Except.error "CountMinSketch width must be power of two"
  else if depth = 0 then
    Except.error "CountMinSketch depth must be greater than zero"
  else
    Except.ok ⟨width, depth, seed, List.replicate (width * depth) 0⟩

/-- `CountMinSketch::hash(key, index)`: per-row salted Murmur hash. -/
def CountMinSketch.rowHash (seed : Nat) (key : List Nat) (index : Nat) : Nat :=
  murmurhash3_64 key (w64 (seed + w64 (index * 0x9e3779b97f4a7c15)))

/-- Flat index `(i * width_) + (h & (width_ - 1))` of the counter addressed
by row `i` for a key hashing to `h` in that row. -/
def cmsIndex (width : Nat) (h i : Nat) : Nat := i * width + (h &&& (width - 1))

/-- `CountMinSketch::increment(key, count)` over an arbitrary per-row hash
family `hashF` (instantiated by `CountMinSketch.rowHash seed` in the code);
the `+=` on a `std::uint64_t` counter wraps modulo `2 ^ 64`. -/
def CountMinSketch.increment (hashF : List Nat → Nat → Nat)
    (s : CountMinSketch) (key : List Nat) (count : Nat) : CountMinSketch :=
  { s with
    table := (List.range s.depth).foldl
      (fun t i =>
        let idx := cmsIndex s.width (hashF key i) i
        t.set idx (w64 (t.getD idx 0 + count)))
      s.table }

/-- `CountMinSketch::estimate(key)`: minimum of the addressed counters,
starting from `UINT64_MAX`, returning `0` if the minimum is `UINT64_MAX`. -/
def CountMinSketch.estimate (hashF : List Nat → Nat → Nat)
    (s : CountMinSketch) (key : List Nat) : Nat :=
  let result := (List.range s.depth).foldl
    (fun r i => min r (s.table.getD (cmsIndex s.width (hashF key i) i) 0))
    (2 ^ 64 - 1)
  if result = 2 ^ 64 - 1 then 0 else result

/-- Replay of a sequence of `increment(key, count)` calls. -/
def CountMinSketch.run (hashF : List Nat → Nat → Nat)
    (s : CountMinSketch) (trace : List (List Nat × Nat)) : CountMinSketch :=
  trace.foldl (fun acc e => acc.increment hashF e.1 e.2) s

/-- The true count of `key` in a trace: the sum of all counts incremented
for it. -/
def trueCount (trace : List (List Nat × Nat)) (key : List Nat) : Nat :=
  ((trace.filter (fun e => e.1 = key)).map (fun e => e.2)).sum

/-- The exact (unwrapped) sum accumulated into the row-`i` counter at
column `j`: the sum of all counts of trace entries whose row-`i` hash
addresses column `j`. -/
def cellSum (hashF : List Nat → Nat → Nat) (width : Nat)
    (trace : List (List Nat × Nat)) (i j : Nat) : Nat :=
  ((trace.filter (fun e => hashF e.1 i &&& (width - 1) = j)).map (fun e => e.2)).sum

/-! ## HyperLogLog (`event_processor/src/hyperloglog.cpp`) -/

/-- State of `HyperLogLog`: `registers` has length `2 ^ precision`. -/
structure HyperLogLog where
  precision : Nat
  registers : List Nat
deriving Repr, DecidableEq

/-- The `HyperLogLog` constructor: `register_count_ = 1 << precision`,
validation `precision ∈ [4, 18]`. -/
def HyperLogLog.init (precision : Nat) : Except String HyperLogLog :=
  if precision < 4 ∨ 18 < precision then
    Except.error "HyperLogLog precision must be between 4 and 18"
  else
    Except.ok ⟨precision, List.replicate (2 ^ precision) 0⟩

/-- The loop body of `HyperLogLog::rho`: `count` starts at `1` and the
`while (count <= max_bits)` loop runs at most `max_bits` iterations,
breaking when bit 63 of `x` is set, shifting `x` left otherwise. -/
def rhoAux : Nat → Nat → Nat → Nat
  | _, 0, count => count
  | x, n + 1, count =>
    if x.testBit 63 then count else rhoAux (w64 (x <<< 1)) n (count + 1)

/-- `HyperLogLog::rho(x, max_bits)`. -/
def HyperLogLog.rho (x max_bits : Nat) : Nat := rhoAux x max_bits 1

/-- `index`: the top `precision` bits of the hash. -/
def hllIndex (p hash : Nat) : Nat := hash >>> (64 - p)

/-- `rank`: `rho` of the remaining `64 - precision` hash bits shifted to
the top (`remaining = hash << precision` as a `u64`). -/
def hllRank (p hash : Nat) : Nat :=
  HyperLogLog.rho (w64 (hash <<< p)) (64 - p)

/-- The register update performed by `HyperLogLog::add` once the 64-bit
hash value `hash` of the added value is known: split off the top
`precision` bits as the register index, compute `rho` of the remaining
bits (shifted to the top), and take the register-wise max. -/
def HyperLogLog.addHash (h : HyperLogLog) (hash : Nat) : HyperLogLog :=
  let index := hllIndex h.precision hash
  let rank := hllRank h.precision hash
  { h with registers := h.registers.set index (max (h.registers.getD index 0) rank) }

/-- `HyperLogLog::add(value)`: hash with the fixed seed `0xadc83b19`,
then update the addressed register. -/
def HyperLogLog.add (h : HyperLogLog) (value : List Nat) : HyperLogLog :=
  h.addHash (murmurhash3_64 value 0xadc83b19)

/-- Folding `add` over a list of values. -/
def HyperLogLog.addAll (h : HyperLogLog) (values : List (List Nat)) : HyperLogLog :=
  values.foldl (fun acc v => acc.add v) h

/-- The largest rank an element of `values` addressed to register `i`
contributes (`0` when none is): the pointwise effect of a sequence of
`add` calls on register `i`. -/
def supRanks (p i : Nat) (values : List (List Nat)) : Nat :=
  ((values.filter (fun v => hllIndex p (murmurhash3_64 v 0xadc83b19) = i)).map
    (fun v => hllRank p (murmurhash3_64 v 0xadc83b19))).foldr max 0

/-- `HyperLogLog::merge(other)`: requires equal precision, registers merge
by elementwise max. -/
def HyperLogLog.merge (h other : HyperLogLog) : Except String HyperLogLog :=
  if other.precision ≠ h.precision then
    Except.error "Cannot merge HyperLogLog with different precision"
  else
    Except.ok { h with registers := h.registers.zipWith max other.registers }

/-- HyperLogLog states reachable from a validly constructed sketch by any
sequence of `add` (with arbitrary 64-bit hash outcomes, which subsumes the
Murmur hash of any value) and `merge` calls. -/
inductive HLLReach : HyperLogLog → Prop
  | init (p : Nat) (h : HyperLogLog) : HyperLogLog.init p = Except.ok h → HLLReach h
  | addHash (h : HyperLogLog) (hash : Nat) : HLLReach h → hash < 2 ^ 64 →
      HLLReach (h.addHash hash)
  | merge (h other merged : HyperLogLog) : HLLReach h → HLLReach other →
      h.merge other = Except.ok merged → HLLReach merged

/-! ## Indexed skip list (`leaderboard/src/skip_list.cpp`)

The pointer structure is represented positionally: the state stores the
level-0 chain (`towers`, header excluded) together with each node's tower
height (the length of its `forward` array).  Under the structural
invariant of spec §3 — a node appearing at level `L` appears at all lower
levels, every chain sorted — the level-`lvl` successor pointer of the node
at level-0 position `p` is the next tower of height `> lvl`, which is what
`fwd` computes.  Positions are `0` for the header node and `p ∈ [1, n]`
for `towers[p-1]`.  `σ` is the score type (`double` in the C++). -/

/-- One node of the skip list (minus its forward array, which is
represented positionally by `height` = `forward.size()`). -/
structure Tower (σ : Type) where
  user_id : String
  score : σ
  last_update : Int
  height : Nat
deriving Repr, DecidableEq

/-- Skip-list state: level-0 chain, `max_levels_`, `current_level_`,
`size_`, and the key set of the id index `index_`. -/
structure SkipList (σ : Type) where
  towers : List (Tower σ)
  maxLevels : Nat
  currentLevel : Nat
  size : Nat
  index : List String
deriving Repr, DecidableEq

variable {σ : Type} [LinearOrder σ]

/-- `SkipList::comes_before(lhs, score, user_id)`: does node `lhs` sort
strictly before the key `(score, user_id)` in (score desc, id asc) order? -/
def comesBefore (lhs : Tower σ) (score : σ) (user_id : String) : Bool :=
  if score < lhs.score then true
  else if lhs.score < score then false
  else strLt lhs.user_id user_id

/-- Freshly constructed empty skip list (validation of `max_levels` and
`probability` is handled at the call sites that can fail; the leaderboard
constructs `SkipList(16, 0.5)`, which passes validation). -/
def SkipList.initSL (σ : Type) (maxLevels : Nat) : SkipList σ :=
  ⟨[], maxLevels, 1, 0, []⟩

/-- Positional forward pointer: the first position `q > p` whose tower
appears on the level-`lvl` chain (height `> lvl`), or `none` for the null
pointer at the end of the chain. -/
def fwd (ts : List (Tower σ)) (lvl p : Nat) : Option Nat :=
  match (ts.drop p).findIdx? (fun t => lvl < t.height) with
  | some k => some (p + k + 1)
  | none => none

/-- The per-level search loop
`while (current->forward[level] && ok(current->forward[level])) current = current->forward[level]`;
`ok q` is the continuation test on the candidate position `q` and `fuel`
bounds the iteration count (`ts.length` always suffices since positions
strictly increase). -/
def walkLevel (ts : List (Tower σ)) (ok : Nat → Bool) (lvl : Nat) :
    Nat → Nat → Nat
  | 0, p => p
  | fuel + 1, p =>
    match fwd ts lvl p with
    | none => p
    | some q => if ok q then walkLevel ts ok lvl fuel q else p

/-- The descending `for (level = current_level_ - 1; level >= 0; --level)`
search: process the given levels in order, starting from position `p`. -/
def runLevels (ts : List (Tower σ)) (ok : Nat → Bool) : List Nat → Nat → Nat
  | [], p => p
  | l :: rest, p => runLevels ts ok rest (walkLevel ts ok l ts.length p)

/-- The descending level sequence `[cl - 1, cl - 2, ..., lvl]`. -/
def levelsDown (cl lvl : Nat) : List Nat := (List.range' lvl (cl - lvl)).reverse

/-- `update[lvl]` as computed by the search pass of `upsert`/`erase`:
the position where the walk of level `lvl` stops, having started from the
position the walk of level `lvl + 1` stopped at (header for levels
`≥ current_level_`, where the C++ leaves `update[lvl]` null for `erase`
and sets it to the header for `upsert`; under the height invariant the
null entries are never dereferenced). -/
def updatePos (ts : List (Tower σ)) (ok : Nat → Bool) (cl lvl : Nat) : Nat :=
  if lvl < cl then runLevels ts ok (levelsDown cl lvl) 0 else 0

/-- The loop
`while (current_level_ > 1 && header_->forward[current_level_ - 1] == nullptr) --current_level_;`
run on the post-splice chain. -/
def shrinkLevel (ts2 : List (Tower σ)) : Nat → Nat
  | 0 => 0
  | 1 => 1
  | n + 2 => if fwd ts2 (n + 1) 0 = none then shrinkLevel ts2 (n + 1) else n + 2

/-- The search pass of `SkipList::erase`: the per-candidate continuation
test `current->forward[level] != target && comes_before(current->forward[level], target->score, target->user_id)`
on the candidate position `q`, where `t` is the target's position. -/
def eraseOk (ts : List (Tower σ)) (t : Nat) (score : σ) (user_id : String)
    (q : Nat) : Bool :=
  (q != t) &&
    (match ts.get? (q - 1) with
     | some tw => comesBefore tw score user_id
     | none => false)

/-- `SkipList::erase(user_id)`: index lookup, search for the splice
points with the `forward[level] != target` guard, splice out of every
level the target is linked on (`removed` is the disjunction of the
per-level splice tests), shrink `current_level_`, update `index_` and
`size_`.  In the positional representation splicing the target out of
every chain it appears on is removal from the level-0 list. -/
def SkipList.erase (sl : SkipList σ) (user_id : String) : SkipList σ :=
  if user_id ∈ sl.index then
    match sl.towers.findIdx? (fun tw => tw.user_id = user_id) with
    | none => sl
    | some ti =>
      match sl.towers.get? ti with
      | none => sl
      | some target =>
        let t := ti + 1
        let ok := eraseOk sl.towers t target.score target.user_id
        let removed := (List.range target.height).any
          (fun lvl => fwd sl.towers lvl (updatePos sl.towers ok sl.currentLevel lvl) = some t)
        if removed then
          let ts2 := sl.towers.eraseIdx ti
          { towers := ts2
            maxLevels := sl.maxLevels
            currentLevel := shrinkLevel ts2 sl.currentLevel
            size := sl.size - 1
            index := sl.index.erase user_id }
        else sl
  else sl

/-- The search pass of `SkipList::upsert`: the continuation test
`comes_before(current->forward[level], score, user_id)` on candidate
position `q`. -/
def upsertOk (ts : List (Tower σ)) (score : σ) (user_id : String)
    (q : Nat) : Bool :=
  match ts.get? (q - 1) with
  | some tw => comesBefore tw score user_id
  | none => false

/-- `SkipList::upsert(user_id, score, timestamp)`: erase any existing node
for the id, draw the tower level (`node_level`, the oracle stand-in for
`random_level()`), search the splice points, raise `current_level_` if
needed, link the new node at levels `0 .. node_level - 1`, and record it
in the index.  In the positional representation, linking at every level of
the tower is insertion into the level-0 list at the level-0 splice point
`update[0]`. -/
def SkipList.upsert (sl : SkipList σ) (user_id : String) (score : σ)
    (timestamp : Int) (node_level : Nat) : SkipList σ :=
  let sl1 := sl.erase user_id
  let ok := upsertOk sl1.towers score user_id
  let p0 := runLevels sl1.towers ok (levelsDown sl1.currentLevel 0) 0
  let node : Tower σ := ⟨user_id, score, timestamp, node_level⟩
  { towers := sl1.towers.take p0 ++ node :: sl1.towers.drop p0
    maxLevels := sl1.maxLevels
    currentLevel := max sl1.currentLevel node_level
    size := sl1.size + 1
    index := user_id :: sl1.index }

/-- `SkipList::find(user_id)`: O(1) lookup through `index_`; the index
entry points at the unique node carrying the id. -/
def SkipList.find (sl : SkipList σ) (user_id : String) : Option (Tower σ) :=
  if user_id ∈ sl.index then sl.towers.find? (fun tw => tw.user_id = user_id)
  else none

/-- `SkipList::tail()`: the last node of the level-0 chain. -/
def SkipList.tail (sl : SkipList σ) : Option (Tower σ) := sl.towers.getLast?

/-- `SkipList::top_k(k)`: the first `k` nodes of the level-0 chain. -/
def SkipList.topK (sl : SkipList σ) (k : Nat) : List (Tower σ) := sl.towers.take k

/-- `SkipList::rank_of(user_id)`: 1-based level-0 position, `0` if absent. -/
def SkipList.rankOf (sl : SkipList σ) (user_id : String) : Nat :=
  match sl.towers.findIdx? (fun tw => tw.user_id = user_id) with
  | some i => i + 1
  | none => 0

/-- `SkipList::clear()`. -/
def SkipList.clear (sl : SkipList σ) : SkipList σ :=
  { towers := [], maxLevels := sl.maxLevels, currentLevel := 1, size := 0, index := [] }

/-- Skip-list states reachable from a freshly constructed list by any
sequence of `upsert` and `erase` calls; `random_level()` outcomes are the
universally quantified `lvl` arguments, which `random_level` always draws
in `[1, max_levels_]`. -/
inductive SLReach (σ : Type) [LinearOrder σ] (ml : Nat) : SkipList σ → Prop
  | init : 1 ≤ ml → ml ≤ 32 → SLReach σ ml (SkipList.initSL σ ml)
  | upsert (sl : SkipList σ) (user_id : String) (score : σ) (timestamp : Int)
      (lvl : Nat) : SLReach σ ml sl → 1 ≤ lvl → lvl ≤ ml →
      SLReach σ ml (sl.upsert user_id score timestamp lvl)
  | erase (sl : SkipList σ) (user_id : String) : SLReach σ ml sl →
      SLReach σ ml (sl.erase user_id)

/-- The strict (score descending, id ascending) node order of the spec:
node `a` sorts strictly before node `b`. -/
def towerLt (a b : Tower σ) : Prop :=
  b.score < a.score ∨ (a.score = b.score ∧ strLt a.user_id b.user_id = true)

/-- The structural invariant of reachable skip lists: the level-0 chain is
strictly sorted by (score desc, id asc), ids are unique, the id index
holds exactly the ids of the chain, the stored `size_` counter equals the
chain length, and `current_level_` stays within `[1, max_levels]` and
dominates every tower height. -/
def SLInv (ml : Nat) (sl : SkipList σ) : Prop :=
  sl.towers.Pairwise towerLt ∧
  (sl.towers.map (fun t => t.user_id)).Nodup ∧
  (∀ id, id ∈ sl.index ↔ id ∈ sl.towers.map (fun t => t.user_id)) ∧
  sl.index.Nodup ∧
  sl.size = sl.towers.length ∧
  sl.maxLevels = ml ∧
  1 ≤ sl.currentLevel ∧ sl.currentLevel ≤ ml ∧
  (∀ t ∈ sl.towers, 1 ≤ t.height ∧ t.height ≤ sl.currentLevel)

/-! ## Leaderboard (`leaderboard/src/leaderboard.cpp`)

`σ` again models `double`.  The stored `TimeDecay` is represented by its
factor; the decay computation of `update_user` goes through the explicit
`decayFn` parameter standing for `decay_.apply` (whose libm `pow` the
score model cannot compute), and `std::stod` of the JSON loader is the
explicit `parseF` parameter. -/

/-- Leaderboard state (`skip_list_`, `decay_` represented by its factor,
`max_users_`; the injected clock is passed at each call). -/
structure Leaderboard (σ : Type) where
  skip_list : SkipList σ
  decay_factor : σ
  max_users : Nat
deriving Repr, DecidableEq

/-- The `Leaderboard` constructor: `skip_list_(16, 0.5)`, stores the decay
factor and `max_users` (the `TimeDecay` validation of the factor is a
precondition of the states we quantify over). -/
def Leaderboard.initLB (σ : Type) [LinearOrder σ] (decay_factor : σ)
    (max_users : Nat) : Leaderboard σ :=
  ⟨SkipList.initSL σ 16, decay_factor, max_users⟩

/-- `Leaderboard::update_user(user_id, points, timestamp)`.  `decayFn`
stands for `decay_.apply`, `now_fallback` for `clock_fn_()`, and `lvl`
for the `random_level()` draw of the inner `upsert`. -/
def Leaderboard.updateUser [Zero σ] [Add σ] (decayFn : σ → Int → Int → σ)
    (lb : Leaderboard σ) (user_id : String) (points : σ) (timestamp : Int)
    (now_fallback : Int) (lvl : Nat) : Leaderboard σ :=
  let now := if 0 < timestamp then timestamp else now_fallback
  if points = 0 ∧ lb.skip_list.find user_id = none then lb
  else
    let new_score :=
      match lb.skip_list.find user_id with
      | some existing => decayFn existing.score existing.last_update now + points
      | none => points
    let sl1 := lb.skip_list.upsert user_id new_score now lvl
    let sl2 :=
      if 0 < lb.max_users ∧ lb.max_users < sl1.size then
        match sl1.tail with
        | some tl =>
          if tl.user_id ≠ user_id ∨ lb.max_users < sl1.size then sl1.erase tl.user_id
          else sl1
        | none => sl1
      else sl1
    { lb with skip_list := sl2 }

/-- Leaderboard states reachable from construction by any sequence of
`update_user` calls (for a fixed decay function; level draws bounded by
the constructed `max_levels = 16`). -/
inductive LBReach (σ : Type) [LinearOrder σ] [Zero σ] [Add σ]
    (decayFn : σ → Int → Int → σ) : Leaderboard σ → Prop
  | init (decay_factor : σ) (max_users : Nat) :
      LBReach σ decayFn (Leaderboard.initLB σ decay_factor max_users)
  | update (lb : Leaderboard σ) (user_id : String) (points : σ)
      (timestamp now_fallback : Int) (lvl : Nat) :
      LBReach σ decayFn lb → 1 ≤ lvl → lvl ≤ 16 →
      LBReach σ decayFn (lb.updateUser decayFn user_id points timestamp now_fallback lvl)

/-! ## Leaderboard JSON snapshot
(`Leaderboard::save_to_json` / `Leaderboard::load_from_json`)

File contents are character lists; the `std::ofstream`/`std::ifstream`
plumbing (and its open-failure throw) is outside the model, which maps
leaderboard state to the written content and content to the
post-`load_from_json` state.  An exception escaping mid-load leaves the
partially mutated state behind, so `loadFromJson` returns the final state
together with the pending exception message, if any. -/

/-- The characters trimmed by `trim` (`" \t\n\r"`). -/
def isSpaceChar (c : Char) : Bool :=
  c = ' ' ∨ c = '\t' ∨ c = '\n' ∨ c = '\r'

/-- `trim`: strip leading and trailing whitespace (via
`find_first_not_of`/`find_last_not_of`; all-whitespace input gives ""). -/
def trimWs (s : List Char) : List Char :=
  ((s.dropWhile isSpaceChar).reverse.dropWhile isSpaceChar).reverse

/-- The `'"'` character. -/
def quoteC : Char := Char.ofNat 34

/-- The `'\\'` character. -/
def backslashC : Char := Char.ofNat 92

/-- The `'{'` character. -/
def lbraceC : Char := Char.ofNat 123

/-- The `'}'` character. -/
def rbraceC : Char := Char.ofNat 125

/-- `escape_json`: escape `"` and `\` with a backslash, copy everything
else through. -/
def escapeJson (s : List Char) : List Char :=
  s.flatMap fun c =>
    if c = quoteC then [backslashC, quoteC]
    else if c = backslashC then [backslashC, backslashC]
    else [c]

/-- `std::string::find(needle, start)`: first position `≥ start` where
`needle` occurs, `none` for `npos`. -/
def findSub (hay needle : List Char) (start : Nat) : Option Nat :=
  (List.range' start (hay.length + 1 - start)).find?
    (fun i => needle.isPrefixOf (hay.drop i))

/-- `std::string::find(c, start)` for a single character. -/
def findChar (hay : List Char) (c : Char) (start : Nat) : Option Nat :=
  findSub hay [c] start

/-- `std::string::find_first_of(set, start)`. -/
def findFirstOf (hay : List Char) (cs : List Char) (start : Nat) : Option Nat :=
  (List.range' start (hay.length - start)).find?
    (fun i => (hay.getD i ' ') ∈ cs)

/-- `substr(start, end - start)` where `end` may be `npos` (`none`), in
which case the substring runs to the end of the string. -/
def sliceTo (hay : List Char) (start : Nat) (stop : Option Nat) : List Char :=
  match stop with
  | none => hay.drop start
  | some e => (hay.drop start).take (e - start)

/-- The rendering of one snapshot entry:
`    {"user_id": "<escaped>", "score": <score>, "last_update": <ts>}`. -/
def entryChunk (renderF : σ → List Char) (t : Tower σ) : List Char :=
  "    \x7b\"user_id\": \"".data ++ escapeJson t.user_id.data ++
    "\", \"score\": ".data ++ renderF t.score ++
    ", \"last_update\": ".data ++ (toString t.last_update).data ++ "\x7d".data

/-- `Leaderboard::save_to_json`: the full content written to the stream.
`renderF` stands for `operator<<(std::ostream&, double)` (exact on the
integer-valued scores evaluated concretely here); `max_users_` and
`last_update` print as decimal integers. -/
def Leaderboard.saveToJson (renderF : σ → List Char) (lb : Leaderboard σ) :
    List Char :=
  "\x7b\n  \"decay_factor\": ".data ++ renderF lb.decay_factor ++
    ",\n  \"max_users\": ".data ++ (toString lb.max_users).data ++
    ",\n  \"entries\": [\n".data ++
    ((lb.skip_list.towers.map (entryChunk renderF)).intersperse ",\n".data).flatten ++
    "\n  ]\n\x7d\n".data

/-- Decimal digit test. -/
def isDigitC (c : Char) : Bool := '0' ≤ c ∧ c ≤ '9'

/-- Value of a maximal leading digit run, `none` when it is empty. -/
def parseDigits (s : List Char) : Option Nat :=
  match s.takeWhile isDigitC with
  | [] => none
  | ds => some (ds.foldl (fun a c => a * 10 + (c.toNat - '0'.toNat)) 0)

/-- `std::stoll` on an already-trimmed string: optional sign, then a
nonempty digit run (trailing junk ignored); `none` models the
`std::invalid_argument` throw on an empty digit run. -/
def parseIntSt (s : List Char) : Option Int :=
  match s with
  | '-' :: rest => (parseDigits rest).map (fun n => -(n : Int))
  | '+' :: rest => (parseDigits rest).map (fun n => (n : Int))
  | _ => (parseDigits s).map (fun n => (n : Int))

/-- `std::stoull` cast to `std::size_t`, for the non-negative numerals the
snapshot format carries: digit-run prefix, `none` models the throw. -/
def parseNatSt (s : List Char) : Option Nat :=
  match s with
  | '+' :: rest => parseDigits rest
  | _ => parseDigits s

/-- The top-level `extract_numeric(key)` lambda of `load_from_json`:
locate `"key"`, then the following `:`, and take the trimmed run up to
the next `,`, `}` or newline. -/
def extractNumericTop (content key : List Char) : Option (List Char) :=
  match findSub content (quoteC :: key ++ [quoteC]) 0 with
  | none => none
  | some key_pos =>
    match findChar content ':' key_pos with
    | none => none
    | some colon =>
      let e := findFirstOf content [',', rbraceC, '\n'] (colon + 1)
      some (trimWs (sliceTo content (colon + 1) e))

/-- The per-object `extract_value(key)` lambda: for `user_id` the run
between the first two quotes after the colon (escapes are not undone);
for numeric keys as in `extract_numeric`. -/
def extractField (obj key : List Char) (isStringKey : Bool) :
    Option (List Char) :=
  match findSub obj (quoteC :: key ++ [quoteC]) 0 with
  | none => none
  | some key_position =>
    match findChar obj ':' key_position with
    | none => none
    | some colon_pos =>
      if isStringKey then
        match findChar obj quoteC (colon_pos + 1) with
        | none => none
        | some first_quote =>
          match findChar obj quoteC (first_quote + 1) with
          | none => none
          | some second_quote =>
            some (sliceTo obj (first_quote + 1) (some second_quote))
      else
        let value_end := findFirstOf obj [',', rbraceC, '\n'] (colon_pos + 1)
        some (trimWs (sliceTo obj (colon_pos + 1) value_end))

/-- The object-splitting `while (true)` loop over the entries block:
each iteration takes the text between the next `{` and the next `}`. -/
def parseObjs (block : List Char) : Nat → Nat → List (List Char)
  | 0, _ => []
  | fuel + 1, pos =>
    match findChar block lbraceC pos with
    | none => []
    | some obj_start =>
      match findChar block rbraceC obj_start with
      | none => []
      | some obj_end =>
        sliceTo block (obj_start + 1) (some obj_end) ::
          parseObjs block fuel (obj_end + 1)

/-- One parsed entry object: upsert when all three fields are present,
skip otherwise; a field that is present but fails `std::stod`/`std::stoll`
throws (`none` results). -/
def applyEntries (parseF : List Char → Option σ) (lvls : Nat → Nat) :
    List (List Char) → Nat → SkipList σ → SkipList σ × Option String
  | [], _, sl => (sl, none)
  | obj :: rest, i, sl =>
    match extractField obj "user_id".data true,
        extractField obj "score".data false,
        extractField obj "last_update".data false with
    | some user, some score_s, some ts_s =>
      match parseF score_s with
      | none => (sl, some "stod: invalid argument")
      | some score =>
        match parseIntSt ts_s with
        | none => (sl, some "stoll: invalid argument")
        | some ts =>
          applyEntries parseF lvls rest (i + 1)
            (sl.upsert (String.mk user) score ts (lvls i))
    | _, _, _ => applyEntries parseF lvls rest i sl

/-- The entries phase of `load_from_json`, entered after the skip list has
been cleared: locate the `"entries"` array and replay its objects. -/
def loadEntriesPhase (parseF : List Char → Option σ) (lvls : Nat → Nat)
    (content : List Char) (sl : SkipList σ) : SkipList σ × Option String :=
  match findSub content (quoteC :: "entries".data ++ [quoteC]) 0 with
  | none => (sl, none)
  | some entries_pos =>
    match findChar content '[' entries_pos with
    | none => (sl, none)
    | some array_start =>
      match findChar content ']' array_start with
      | none => (sl, none)
      | some array_end =>
        let block := sliceTo content (array_start + 1) (some array_end)
        applyEntries parseF lvls (parseObjs block (block.length + 1) 0) 0 sl

/-- `Leaderboard::load_from_json` on an openable file with the given
content.  In source order: optionally reassign `decay_` (with the
`TimeDecay` range validation) and `max_users_`, unconditionally `clear()`
the skip list, then parse the entries array.  The second component is the
exception escaping the call, if any; the first is the state the object is
left in either way.  `parseF` stands for `std::stod`, `lvls` for the
`random_level()` draws of the entry upserts. -/
def Leaderboard.loadFromJson [Zero σ] [One σ]
    (parseF : List Char → Option σ) (lvls : Nat → Nat)
    (lb : Leaderboard σ) (content : List Char) :
    Leaderboard σ × Option String :=
  let step1 : Leaderboard σ × Option String :=
    match extractNumericTop content "decay_factor".data with
    | none => (lb, none)
    | some v =>
      match parseF v with
      | none => (lb, some "stod: invalid argument")
      | some d =>
        if d ≤ 0 ∨ 1 < d then (lb, some "Decay factor must be in (0, 1]")
        else ({ lb with decay_factor := d }, none)
  match step1 with
  | (lb1, some e) => (lb1, some e)
  | (lb1, none) =>
    let step2 : Leaderboard σ × Option String :=
      match extractNumericTop content "max_users".data with
      | none => (lb1, none)
      | some v =>
        match parseNatSt v with
        | none => (lb1, some "stoull: invalid argument")
        | some m => ({ lb1 with max_users := m }, none)
    match step2 with
    | (lb2, some e) => (lb2, some e)
    | (lb2, none) =>
      let cleared := { lb2 with skip_list := lb2.skip_list.clear }
      let res := loadEntriesPhase parseF lvls content cleared.skip_list
      ({ cleared with skip_list := res.1 }, res.2)

/-! ## Lock-free ring buffer, runtime-sized specialisation
(`event_processor/include/ring_buffer.hpp`, `LockFreeRingBuffer<T, 0>`)

Single-threaded semantics: the compare-exchange always succeeds, so each
`push`/`pop` resolves in one look at the addressed cell.  The
`diff > 0` branch re-reads an unchanged position and therefore loops
forever in single-threaded execution; it is modelled as the `none`
outcome.  Positions are ideal naturals (a `std::size_t` wraps only after
`2 ^ 64` operations). -/

/-- One iteration `value |= value >> i` of the bit-smearing loop. -/
def smearStep (v s : Nat) : Nat := v ||| (v >>> s)

/-- `detail::round_up_to_power_of_two`: values `≤ 1` map to `1`; otherwise
decrement, smear with the loop's shift amounts `i = 1, 2, 4, 8, 16, 32`
(`i < 64; i <<= 1`), and re-increment. -/
def roundUpToPowerOfTwo (value : Nat) : Nat :=
  if value ≤ 1 then 1
  else ([1, 2, 4, 8, 16, 32].foldl smearStep (value - 1)) + 1

/-- Ring state: per-cell `(sequence, storage)` plus the two positions. -/
structure Ring (α : Type) where
  size : Nat
  mask : Nat
  cells : List (Nat × Option α)
  enqueue_pos : Nat
  dequeue_pos : Nat
deriving Repr, DecidableEq

/-- The `LockFreeRingBuffer<T, 0>` constructor: round the requested size
up to a power of two (`0` is first bumped to `1`), initialise cell `i`
with `sequence = i`. -/
def Ring.init (α : Type) (size_arg : Nat) : Ring α :=
  let size := roundUpToPowerOfTwo (if size_arg = 0 then 1 else size_arg)
  ⟨size, size - 1, (List.range size).map (fun i => (i, none)), 0, 0⟩

/-- `emplace` (= `push`) under single-threaded execution: read the cell at
`enqueue_pos & mask_`; `seq == pos` publishes the value and returns
`true`; `seq < pos` reports a full queue (`false`); `seq > pos` loops
forever (`none`). -/
def Ring.push (r : Ring α) (v : α) : Option (Ring α × Bool) :=
  let pos := r.enqueue_pos
  let cell := r.cells.getD (pos &&& r.mask) (0, none)
  if cell.1 = pos then
    some ({ r with
        cells := r.cells.set (pos &&& r.mask) (pos + 1, some v)
        enqueue_pos := pos + 1 }, true)
  else if cell.1 < pos then some (r, false)
  else none

/-- `pop` under single-threaded execution: read the cell at
`dequeue_pos & mask_`; `seq == pos + 1` moves the payload out, stores
`seq := pos + size_` and returns it; `seq < pos + 1` reports empty;
`seq > pos + 1` loops forever (`none`). -/
def Ring.pop (r : Ring α) : Option (Ring α × Option α) :=
  let pos := r.dequeue_pos
  let cell := r.cells.getD (pos &&& r.mask) (0, none)
  if cell.1 = pos + 1 then
    some ({ r with
        cells := r.cells.set (pos &&& r.mask) (pos + r.size, none)
        dequeue_pos := pos + 1 }, cell.2)
  else if cell.1 < pos + 1 then some (r, none)
  else none

/-- A single-threaded ring operation. -/
inductive RingOp (α : Type) where
  | push (v : α)
  | pop
deriving Repr, DecidableEq

/-- Observable outcome of one operation: the `bool` of `push`, or the
popped value (`none` when `pop` returned `false`). -/
inductive RingOut (α : Type) where
  | pushed (b : Bool)
  | popped (v : Option α)
deriving Repr, DecidableEq

/-- Run a ring through a list of operations, collecting the outcomes;
`none` if any operation diverges. -/
def Ring.run (r : Ring α) : List (RingOp α) → Option (Ring α × List (RingOut α))
  | [] => some (r, [])
  | RingOp.push v :: ops =>
    match r.push v with
    | none => none
    | some (r1, b) =>
      match r1.run ops with
      | none => none
      | some (r2, outs) => some (r2, RingOut.pushed b :: outs)
  | RingOp.pop :: ops =>
    match r.pop with
    | none => none
    | some (r1, v) =>
      match r1.run ops with
      | none => none
      | some (r2, outs) => some (r2, RingOut.popped v :: outs)

/-- Modelled from the spec: a FIFO queue bounded by `cap` — push appends
when there is room and reports `false` when full; pop takes the oldest
element. -/
def specQueueStep (cap : Nat) (q : List α) : RingOp α → List α × RingOut α
  | RingOp.push v =>
    if q.length < cap then (q ++ [v], RingOut.pushed true)
    else (q, RingOut.pushed false)
  | RingOp.pop =>
    match q with
    | [] => ([], RingOut.popped none)
    | x :: xs => (xs, RingOut.popped (some x))

/-- Modelled from the spec: run the bounded FIFO queue through a list of
operations. -/
def specQueueRun (cap : Nat) (q : List α) :
    List (RingOp α) → List α × List (RingOut α)
  | [] => (q, [])
  | op :: ops =>
    let s := specQueueStep cap q op
    let rest := specQueueRun cap s.1 ops
    (rest.1, s.2 :: rest.2)

/-- Coupling invariant between a single-threaded ring state and the
abstract queue `q` it holds: positions `[dequeue_pos, enqueue_pos)` hold
the queued values in order (cell `j % size` carrying sequence `j + 1`),
the remaining positions of the window `[enqueue_pos, dequeue_pos + size)`
are free (sequence `j`, empty storage). -/
def RingInv (r : Ring α) (q : List α) : Prop :=
  (∃ k, r.size = 2 ^ k) ∧ 2 ≤ r.size ∧ r.mask = r.size - 1 ∧
  r.cells.length = r.size ∧
  r.dequeue_pos ≤ r.enqueue_pos ∧
  r.enqueue_pos ≤ r.dequeue_pos + r.size ∧
  q.length = r.enqueue_pos - r.dequeue_pos ∧
  (∀ j, r.dequeue_pos ≤ j → j < r.enqueue_pos →
    ∃ v, q.get? (j - r.dequeue_pos) = some v ∧
      r.cells.get? (j % r.size) = some (j + 1, some v)) ∧
  (∀ j, r.enqueue_pos ≤ j → j < r.dequeue_pos + r.size →
    r.cells.get? (j % r.size) = some (j, none))

/-! ## Theorems -/

/-- C8: for every valid decay factor in `(0, 1]`, every score `s` and all
timestamps, `TimeDecay::apply` returns `s` unchanged when
`t_now ≤ t_last` (hence `apply(s, t, t) = s` exactly), and otherwise
returns `s · decay_factor ^ ((t_now − t_last) / 86400)` — the
exponentiation being whatever `std::pow` (`powF`) computes on the
floating-point day count; the inner `days ≤ 0` early-out never fires in
the otherwise-branch because `t_now > t_last` forces `days > 0`. -/
theorem C8_time_decay_apply (td : TimeDecay) (powF : ℚ → ℚ → ℚ) (s : ℚ)
    (tl tn : Int) (_hpos : 0 < td.decay_factor) (_hle : td.decay_factor ≤ 1) :
    (tn ≤ tl → td.apply powF s tl tn = s) ∧
    td.apply powF s tl tl = s ∧
    (tl < tn →
      td.apply powF s tl tn =
        s * powF td.decay_factor (((tn - tl : Int) : ℚ) / 86400)) := by
  refine ⟨fun h => ?_, ?_, fun h => ?_⟩
  · simp [TimeDecay.apply, h]
  · simp [TimeDecay.apply]
  · have hlt : ¬ tn ≤ tl := not_le.mpr h
    have hdelta : (0 : ℚ) < (tn : ℚ) - (tl : ℚ) := by
      have h1 : (1 : Int) ≤ tn - tl := by omega
      have h2 : (1 : ℚ) ≤ ((tn - tl : Int) : ℚ) := by exact_mod_cast h1
      push_cast at h2
      linarith
    have hdays : ¬ ((tn : ℚ) - (tl : ℚ)) / 86400 ≤ 0 := by
      push_neg
      positivity
    simp [TimeDecay.apply, hlt, hdays, Int.cast_sub]

/-- C8 witness: a concrete instantiation of `C8_time_decay_apply` at
decay factor `19/20`, score `2`, timestamps `0` and `86400`, with
`std::pow` instantiated by multiplication. -/
theorem C8_time_decay_apply_witness :
    (TimeDecay.mk (19/20)).apply (fun a b => a * b) 2 0 86400 =
      2 * ((19/20 : ℚ) * (((86400 - 0 : Int) : ℚ) / 86400)) := by
  have h := C8_time_decay_apply (TimeDecay.mk (19/20)) (fun a b => a * b) 2 0
    86400 (by norm_num) (by norm_num)
  exact h.2.2 (by norm_num)

/-- C6: the claim requires construction with `width == 0` to fail, `0` not
being a power of two; but the code's test `(width & (width - 1)) != 0`
evaluates to `0 ≠ 0` at `width == 0`, so the constructor returns normally
(with an empty table), contradicting its own "width must be power of two"
validation message.  This theorem evaluates the constructor at the
failing input `width = 0`, `depth = 1` and records that `0` is not a
power of two. -/
theorem C6_cms_ctor_accepts_width_zero :
    CountMinSketch.init 0 1 12345 = Except.ok ⟨0, 1, 12345, []⟩ ∧
    ¬ ∃ k, (0 : Nat) = 2 ^ k := by
  refine ⟨rfl, ?_⟩
  rintro ⟨k, hk⟩
  exact absurd hk.symm (pow_ne_zero k two_ne_zero)

lemma w64_lt_two_pow (x : Nat) : w64 x < 2 ^ 64 :=
  Nat.mod_lt x (by positivity)

lemma w64_of_lt {x : Nat} (h : x < 2 ^ 64) : w64 x = x := Nat.mod_eq_of_lt h

lemma w64_w64_add (a b : Nat) : w64 (w64 a + b) = w64 (a + b) := by
  simp [w64, Nat.mod_add_mod]

section CMSProofs

variable {hashF : List Nat → Nat → Nat}

lemma setFold_length (f : Nat → Nat) (c : Nat) (l : List Nat) (t : List Nat) :
    (l.foldl (fun t' i => t'.set (f i) (w64 (t'.getD (f i) 0 + c))) t).length
      = t.length := by
  induction l generalizing t with
  | nil => rfl
  | cons a l ih => rw [List.foldl_cons, ih, List.length_set]

lemma setFold_bound (f : Nat → Nat) (c : Nat) (l : List Nat) (t : List Nat)
    (hb : ∀ x ∈ t, x < 2 ^ 64) :
    ∀ x ∈ l.foldl (fun t' i => t'.set (f i) (w64 (t'.getD (f i) 0 + c))) t,
      x < 2 ^ 64 := by
  induction l generalizing t with
  | nil => exact hb
  | cons a l ih =>
    rw [List.foldl_cons]
    refine ih _ (fun x hx => ?_)
    rcases List.mem_or_eq_of_mem_set hx with h | rfl
    · exact hb x h
    · exact w64_lt_two_pow _

lemma setFold_getD_miss (f : Nat → Nat) (c : Nat) (l : List Nat) (t : List Nat)
    (q : Nat) (hq : ∀ i ∈ l, f i ≠ q) :
    (l.foldl (fun t' i => t'.set (f i) (w64 (t'.getD (f i) 0 + c))) t).getD q 0
      = t.getD q 0 := by
  induction l generalizing t with
  | nil => rfl
  | cons a l ih =>
    rw [List.foldl_cons, ih _ (fun i hi => hq i (List.mem_cons_of_mem _ hi))]
    have hne : f a ≠ q := hq a (List.mem_cons_self _ _)
    simp [List.getD_eq_getElem?_getD, List.getElem?_set_ne hne]

lemma setFold_getD_hit (f : Nat → Nat) (c : Nat) (l : List Nat) (t : List Nat)
    (q i0 : Nat) (hmem : i0 ∈ l) (hnd : l.Nodup) (hf : f i0 = q)
    (huniq : ∀ i ∈ l, f i = q → i = i0) (hlen : q < t.length) :
    (l.foldl (fun t' i => t'.set (f i) (w64 (t'.getD (f i) 0 + c))) t).getD q 0
      = w64 (t.getD q 0 + c) := by
  induction l generalizing t with
  | nil => cases hmem
  | cons a l ih =>
    rw [List.foldl_cons]
    rcases List.mem_cons.mp hmem with rfl | hmem'
    · have hrest : ∀ i ∈ l, f i ≠ q := by
        intro i hi hiq
        have : i = i0 := huniq i (List.mem_cons_of_mem _ hi) hiq
        subst this
        exact (List.nodup_cons.mp hnd).1 hi
      rw [setFold_getD_miss f c l _ q hrest, hf]
      rw [List.getD_eq_getElem?_getD, List.getElem?_set_self hlen]
      rw [List.getD_eq_getElem?_getD]
      rfl
    · have hane : f a ≠ q := by
        intro hfa
        have : a = i0 := huniq a (List.mem_cons_self _ _) hfa
        subst this
        exact (List.nodup_cons.mp hnd).1 hmem'
      rw [ih (t.set (f a) (w64 (t.getD (f a) 0 + c))) hmem'
        (List.nodup_cons.mp hnd).2
        (fun i hi hiq => huniq i (List.mem_cons_of_mem _ hi) hiq)
        (by rw [List.length_set]; exact hlen)]
      congr 1
      simp only [List.getD_eq_getElem?_getD, List.getElem?_set_ne hane]

lemma resid_lt_width {wk : Nat} (h : Nat) : h &&& (2 ^ wk - 1) < 2 ^ wk := by
  rw [Nat.and_pow_two_sub_one_eq_mod]
  exact Nat.mod_lt _ (pow_pos two_pos wk)

lemma cmsIndex_eq_components {wk W : Nat} (hW : W = 2 ^ wk)
    {h' i' i j : Nat} (hj : j < W)
    (heq : cmsIndex W h' i' = i * W + j) :
    i' = i ∧ (h' &&& (W - 1)) = j := by
  subst hW
  have hr : h' &&& (2 ^ wk - 1) < 2 ^ wk := resid_lt_width h'
  unfold cmsIndex at heq
  have hWpos : 0 < 2 ^ wk := pow_pos two_pos wk
  have hdiv : i' = i := by
    have e1 : (i' * 2 ^ wk + (h' &&& (2 ^ wk - 1))) / 2 ^ wk = i' := by
      rw [Nat.mul_comm, Nat.mul_add_div hWpos, Nat.div_eq_of_lt hr, Nat.add_zero]
    have e2 : (i * 2 ^ wk + j) / 2 ^ wk = i := by
      rw [Nat.mul_comm, Nat.mul_add_div hWpos, Nat.div_eq_of_lt hj, Nat.add_zero]
    rw [← e1, heq, e2]
  refine ⟨hdiv, ?_⟩
  subst hdiv
  omega

lemma increment_table_getD (s : CountMinSketch) (key : List Nat) (c : Nat)
    (wk : Nat) (hw : s.width = 2 ^ wk)
    (hlen : s.table.length = s.width * s.depth)
    (i j : Nat) (hi : i < s.depth) (hj : j < s.width) :
    ((s.increment hashF key c).table).getD (i * s.width + j) 0 =
      (if hashF key i &&& (s.width - 1) = j
       then w64 (s.table.getD (i * s.width + j) 0 + c)
       else s.table.getD (i * s.width + j) 0) := by
  have hq : i * s.width + j < s.table.length := by
    rw [hlen, Nat.mul_comm s.width s.depth]
    calc i * s.width + j < i * s.width + s.width := by omega
    _ = (i + 1) * s.width := by ring
    _ ≤ s.depth * s.width := Nat.mul_le_mul_right _ (by omega)
  show ((List.range s.depth).foldl _ s.table).getD (i * s.width + j) 0 = _
  split
  case isTrue hhit =>
    refine setFold_getD_hit _ c _ _ _ i (List.mem_range.mpr hi)
      (List.nodup_range _) ?_ ?_ hq
    · unfold cmsIndex
      rw [hhit]
    · intro i' _ hfi
      exact (cmsIndex_eq_components hw hj hfi).1
  case isFalse hmiss =>
    refine setFold_getD_miss _ c _ _ _ ?_
    intro i' _ hfi
    have hcomp := cmsIndex_eq_components hw hj hfi
    exact hmiss (hcomp.1 ▸ hcomp.2)

lemma increment_width (s : CountMinSketch) (key : List Nat) (c : Nat) :
    (s.increment hashF key c).width = s.width := rfl

lemma increment_depth (s : CountMinSketch) (key : List Nat) (c : Nat) :
    (s.increment hashF key c).depth = s.depth := rfl

lemma increment_length (s : CountMinSketch) (key : List Nat) (c : Nat) :
    (s.increment hashF key c).table.length = s.table.length := by
  show ((List.range s.depth).foldl _ s.table).length = s.table.length
  exact setFold_length (fun i => cmsIndex s.width (hashF key i) i) c _ _

lemma increment_bound (s : CountMinSketch) (key : List Nat) (c : Nat)
    (hb : ∀ x ∈ s.table, x < 2 ^ 64) :
    ∀ x ∈ (s.increment hashF key c).table, x < 2 ^ 64 := by
  show ∀ x ∈ (List.range s.depth).foldl _ s.table, x < 2 ^ 64
  exact setFold_bound (fun i => cmsIndex s.width (hashF key i) i) c _ _ hb

lemma run_width (s : CountMinSketch) (trace : List (List Nat × Nat)) :
    (s.run hashF trace).width = s.width := by
  induction trace generalizing s with
  | nil => rfl
  | cons e trace ih => exact (ih (s.increment hashF e.1 e.2)).trans rfl

lemma run_depth (s : CountMinSketch) (trace : List (List Nat × Nat)) :
    (s.run hashF trace).depth = s.depth := by
  induction trace generalizing s with
  | nil => rfl
  | cons e trace ih => exact (ih (s.increment hashF e.1 e.2)).trans rfl

lemma cellSum_cons (W : Nat) (e : List Nat × Nat) (trace : List (List Nat × Nat))
    (i j : Nat) :
    cellSum hashF W (e :: trace) i j =
      (if hashF e.1 i &&& (W - 1) = j then e.2 else 0) +
        cellSum hashF W trace i j := by
  unfold cellSum
  rw [List.filter_cons]
  split
  case isTrue h =>
    simp only [decide_eq_true_eq] at h
    rw [if_pos h, List.map_cons, List.sum_cons]
  case isFalse h =>
    simp only [decide_eq_true_eq] at h
    rw [if_neg h, Nat.zero_add]

lemma run_table_getD (s : CountMinSketch) (trace : List (List Nat × Nat))
    (wk : Nat) (hw : s.width = 2 ^ wk)
    (hlen : s.table.length = s.width * s.depth)
    (hb : ∀ x ∈ s.table, x < 2 ^ 64)
    (i j : Nat) (hi : i < s.depth) (hj : j < s.width) :
    ((s.run hashF trace).table).getD (i * s.width + j) 0 =
      w64 (s.table.getD (i * s.width + j) 0 + cellSum hashF s.width trace i j) := by
  induction trace generalizing s with
  | nil =>
    have hq : i * s.width + j < s.table.length := by
      rw [hlen, Nat.mul_comm s.width s.depth]
      calc i * s.width + j < i * s.width + s.width := by omega
      _ = (i + 1) * s.width := by ring
      _ ≤ s.depth * s.width := Nat.mul_le_mul_right _ (by omega)
    have hx : s.table.getD (i * s.width + j) 0 < 2 ^ 64 := by
      rw [List.getD_eq_getElem?_getD, List.getElem?_eq_getElem hq]
      exact hb _ (List.getElem_mem hq)
    show s.table.getD (i * s.width + j) 0 = _
    rw [cellSum, List.filter_nil, List.map_nil, List.sum_nil, Nat.add_zero,
      w64_of_lt hx]
  | cons e trace ih =>
    show (((s.increment hashF e.1 e.2).run hashF trace).table).getD
        (i * s.width + j) 0 = _
    have hstep := ih (s.increment hashF e.1 e.2)
      (by rw [increment_width, hw]) (by rw [increment_length, hlen]; rfl)
      (increment_bound s e.1 e.2 hb)
      (by rw [increment_depth]; exact hi) (by rw [increment_width]; exact hj)
    rw [increment_width] at hstep
    rw [hstep, increment_table_getD s e.1 e.2 wk hw hlen i j hi hj,
      cellSum_cons]
    split
    case isTrue h =>
      rw [w64_w64_add, Nat.add_assoc]
    case isFalse h =>
      rw [Nat.zero_add]

lemma trueCount_le_cellSum (trace : List (List Nat × Nat)) (key : List Nat)
    (i W : Nat) :
    trueCount trace key ≤ cellSum hashF W trace i (hashF key i &&& (W - 1)) := by
  unfold trueCount cellSum
  refine List.Sublist.sum_le_sum ?_ (fun a _ => Nat.zero_le a)
  refine List.Sublist.map _ ?_
  refine List.monotone_filter_right _ ?_
  intro e he
  simp only [decide_eq_true_eq] at he ⊢
  rw [he]

lemma foldl_min_le_start (v : Nat → Nat) (l : List Nat) (a : Nat) :
    l.foldl (fun r i => min r (v i)) a ≤ a := by
  induction l generalizing a with
  | nil => exact le_refl a
  | cons b l ih => exact le_trans (ih (min a (v b))) (min_le_left _ _)

lemma foldl_min_le_mem (v : Nat → Nat) (l : List Nat) (a : Nat) {i : Nat}
    (hi : i ∈ l) : l.foldl (fun r i => min r (v i)) a ≤ v i := by
  induction l generalizing a with
  | nil => cases hi
  | cons b l ih =>
    rcases List.mem_cons.mp hi with rfl | hi'
    · exact le_trans (foldl_min_le_start v l (min a (v i))) (min_le_right _ _)
    · exact ih (min a (v b)) hi'

lemma le_foldl_min (v : Nat → Nat) (l : List Nat) (a x : Nat)
    (hxa : x ≤ a) (hx : ∀ i ∈ l, x ≤ v i) :
    x ≤ l.foldl (fun r i => min r (v i)) a := by
  induction l generalizing a with
  | nil => exact hxa
  | cons b l ih =>
    exact ih (min a (v b))
      (le_min hxa (hx b (List.mem_cons_self _ _)))
      (fun i hi => hx i (List.mem_cons_of_mem _ hi))

end CMSProofs

/-- C2: for every valid sketch (width a power of two, depth ≥ 1, via the
constructor succeeding) and every sequence of `increment` calls in which
no `u64` counter overflows (every exact cell sum stays below `2 ^ 64`),
`estimate(k)` dominates the true count of `k` — except in the special case
the claim itself carves out, where every counter addressed by `k` equals
`UINT64_MAX` and `estimate` returns `0`.  Stated for an arbitrary per-row
hash family `hashF`, which covers the code's salted Murmur rows
`CountMinSketch.rowHash seed`. -/
theorem C2_cms_estimate_dominates_true_count
    (wk depth seed : Nat) (hashF : List Nat → Nat → Nat)
    (trace : List (List Nat × Nat)) (key : List Nat)
    (s0 : CountMinSketch)
    (hinit : CountMinSketch.init (2 ^ wk) depth seed = Except.ok s0)
    (hnof : ∀ i < depth, ∀ j < 2 ^ wk,
      cellSum hashF (2 ^ wk) trace i j < 2 ^ 64) :
    trueCount trace key ≤ (s0.run hashF trace).estimate hashF key ∨
      ((s0.run hashF trace).estimate hashF key = 0 ∧
        ∀ i < depth,
          ((s0.run hashF trace).table).getD
            (cmsIndex (2 ^ wk) (hashF key i) i) 0 = 2 ^ 64 - 1) := by
  have hWpos : 0 < 2 ^ wk := pow_pos two_pos wk
  -- unpack the successful construction
  have hmask : 2 ^ wk &&& (2 ^ wk - 1) = 0 := by
    rw [Nat.and_pow_two_sub_one_eq_mod, Nat.mod_self]
  rw [CountMinSketch.init, if_neg (by rw [hmask]; exact fun h => h rfl)] at hinit
  by_cases hd : depth = 0
  · rw [if_pos hd] at hinit
    cases hinit
  rw [if_neg hd] at hinit
  have hs0 : s0 = ⟨2 ^ wk, depth, seed, List.replicate (2 ^ wk * depth) 0⟩ :=
    (Except.ok.injEq _ _ ▸ hinit).symm
  subst hs0
  set s0 : CountMinSketch := ⟨2 ^ wk, depth, seed, List.replicate (2 ^ wk * depth) 0⟩
    with hs0def
  have hcell : ∀ i < depth,
      ((s0.run hashF trace).table).getD (cmsIndex (2 ^ wk) (hashF key i) i) 0 =
        cellSum hashF (2 ^ wk) trace i (hashF key i &&& (2 ^ wk - 1)) := by
    intro i hi
    have hj : hashF key i &&& (2 ^ wk - 1) < 2 ^ wk := resid_lt_width _
    have h0 : s0.table.getD (i * 2 ^ wk + (hashF key i &&& (2 ^ wk - 1))) 0 = 0 := by
      rw [List.getD_eq_getElem?_getD, List.getElem?_replicate]
      split <;> rfl
    have := @run_table_getD hashF s0 trace wk rfl
      (by rw [List.length_replicate])
      (by intro x hx; rw [List.eq_of_mem_replicate hx]; positivity)
      i (hashF key i &&& (2 ^ wk - 1)) hi hj
    rw [h0, Nat.zero_add] at this
    rw [show cmsIndex (2 ^ wk) (hashF key i) i =
      i * 2 ^ wk + (hashF key i &&& (2 ^ wk - 1)) from rfl]
    rw [this, w64_of_lt (hnof i hi _ hj)]
  have htc : ∀ i < depth,
      trueCount trace key ≤
        ((s0.run hashF trace).table).getD (cmsIndex (2 ^ wk) (hashF key i) i) 0 := by
    intro i hi
    rw [hcell i hi]
    exact trueCount_le_cellSum trace key i (2 ^ wk)
  have hcell_lt : ∀ i < depth,
      ((s0.run hashF trace).table).getD (cmsIndex (2 ^ wk) (hashF key i) i) 0
        < 2 ^ 64 := by
    intro i hi
    rw [hcell i hi]
    exact hnof i hi _ (resid_lt_width _)
  have hdpos : 0 < depth := Nat.pos_of_ne_zero hd
  have htc_max : trueCount trace key ≤ 2 ^ 64 - 1 := by
    have := (htc 0 hdpos).trans_lt (hcell_lt 0 hdpos)
    omega
  -- unfold the estimate
  have hrw : (s0.run hashF trace).width = 2 ^ wk := run_width s0 trace
  have hrd : (s0.run hashF trace).depth = depth := run_depth s0 trace
  rw [CountMinSketch.estimate, hrw, hrd]
  set m := (List.range depth).foldl
    (fun r i => min r (((s0.run hashF trace).table).getD
      (cmsIndex (2 ^ wk) (hashF key i) i) 0)) (2 ^ 64 - 1) with hm
  have hmge : trueCount trace key ≤ m :=
    le_foldl_min _ _ _ _ htc_max
      (fun i hi => htc i (List.mem_range.mp hi))
  by_cases hmax : m = 2 ^ 64 - 1
  · refine Or.inr ⟨by rw [if_pos hmax], ?_⟩
    intro i hi
    have h1 : m ≤ ((s0.run hashF trace).table).getD
        (cmsIndex (2 ^ wk) (hashF key i) i) 0 :=
      foldl_min_le_mem _ _ _ (List.mem_range.mpr hi)
    have h2 := hcell_lt i hi
    omega
  · exact Or.inl (by rw [if_neg hmax]; exact hmge)

/-- C2 witness: width `2`, depth `1`, the constant-zero hash family, one
increment of count `3` for key `[97]`; the estimate is `3 ≥ 3`. -/
theorem C2_cms_estimate_dominates_true_count_witness :
    trueCount [([97], 3)] [97] ≤
      ((CountMinSketch.mk 2 1 0 [0, 0]).run (fun _ _ => 0) [([97], 3)]).estimate
        (fun _ _ => 0) [97] ∨
      (((CountMinSketch.mk 2 1 0 [0, 0]).run (fun _ _ => 0) [([97], 3)]).estimate
          (fun _ _ => 0) [97] = 0 ∧
        ∀ i < 1,
          (((CountMinSketch.mk 2 1 0 [0, 0]).run (fun _ _ => 0) [([97], 3)]).table).getD
            (cmsIndex (2 ^ 1) ((fun (_ : List Nat) (_ : Nat) => 0) [97] i) i) 0
            = 2 ^ 64 - 1) := by
  exact C2_cms_estimate_dominates_true_count 1 1 0 (fun _ _ => 0)
    [([97], 3)] [97] ⟨2, 1, 0, [0, 0]⟩ rfl (by decide)

section HLLProofs

lemma rhoAux_le (n : Nat) : ∀ (x c : Nat), rhoAux x n c ≤ n + c := by
  induction n with
  | zero => intro x c; simp [rhoAux]
  | succ n ih =>
    intro x c
    rw [rhoAux]
    split
    · omega
    · have := ih (w64 (x <<< 1)) (c + 1)
      omega

lemma rho_le (x mb : Nat) : HyperLogLog.rho x mb ≤ mb + 1 := rhoAux_le mb x 1

lemma hllRank_le (p hash : Nat) : hllRank p hash ≤ 64 - p + 1 :=
  rho_le _ _

lemma mem_zipWith_max (as : List Nat) :
    ∀ (bs : List Nat) (x : Nat), x ∈ List.zipWith max as bs →
      ∃ a ∈ as, ∃ b ∈ bs, x = max a b := by
  induction as with
  | nil => intro bs x hx; simp at hx
  | cons a as ih =>
    intro bs x hx
    cases bs with
    | nil => simp at hx
    | cons b bs =>
      rw [List.zipWith_cons_cons] at hx
      rcases List.mem_cons.mp hx with rfl | hx'
      · exact ⟨a, List.mem_cons_self _ _, b, List.mem_cons_self _ _, rfl⟩
      · obtain ⟨a', ha, b', hb, rfl⟩ := ih bs x hx'
        exact ⟨a', List.mem_cons_of_mem _ ha, b', List.mem_cons_of_mem _ hb, rfl⟩

lemma hll_eq_of_parts (a b : HyperLogLog) (hp : a.precision = b.precision)
    (hr : a.registers = b.registers) : a = b := by
  cases a
  cases b
  simp only [HyperLogLog.mk.injEq]
  exact ⟨hp, hr⟩

end HLLProofs

/-- C4 counterexample: the claim caps the written rho value at
`64 − precision`, but `HyperLogLog::rho` returns `max_bits + 1` when no
examined bit is set: on a validly constructed precision-4 sketch, an add
whose 64-bit hash is `0` (so the remaining `60` bits are all zero) writes
`61 = 64 − 4 + 1 > 64 − 4` into register `0`. -/
theorem C4_hll_rho_exceeds_claimed_cap :
    HyperLogLog.init 4 = Except.ok (HyperLogLog.mk 4 (List.replicate 16 0)) ∧
    ((HyperLogLog.mk 4 (List.replicate 16 0)).addHash 0).registers.getD 0 0
      = 64 - 4 + 1 ∧
    ¬ ((HyperLogLog.mk 4 (List.replicate 16 0)).addHash 0).registers.getD 0 0
      ≤ 64 - 4 := by
  refine ⟨rfl, by decide, by decide⟩

/-- C4 (amended): for every precision `p ∈ [4, 18]`, the rho value written
by `add` is at most `64 − p + 1` (not `64 − p`; the bound is attained
exactly when the remaining hash bits are all zero), and consequently every
register of every reachable HLL state is at most `64 − p + 1`. -/
theorem C4_hll_register_cap (h : HyperLogLog) (hr : HLLReach h) :
    (4 ≤ h.precision ∧ h.precision ≤ 18) ∧
      ∀ r ∈ h.registers, r ≤ 64 - h.precision + 1 := by
  induction hr with
  | init p h0 hok =>
    rw [HyperLogLog.init] at hok
    split at hok
    · cases hok
    case isFalse hcond =>
      push_neg at hcond
      cases hok
      refine ⟨⟨show 4 ≤ p by omega, show p ≤ 18 by omega⟩, ?_⟩
      intro r hrm
      rw [List.eq_of_mem_replicate hrm]
      exact Nat.zero_le _
  | addHash h0 hash hr hlt ih =>
    refine ⟨ih.1, ?_⟩
    intro r hrm
    rcases List.mem_or_eq_of_mem_set hrm with hmem | rfl
    · exact ih.2 r hmem
    · have hgetD : h0.registers.getD (hllIndex h0.precision hash) 0 ≤
          64 - h0.precision + 1 := by
        rw [List.getD_eq_getElem?_getD]
        cases hc : h0.registers[hllIndex h0.precision hash]? with
        | none => exact Nat.zero_le _
        | some x => exact ih.2 x (List.getElem?_mem hc)
      exact max_le hgetD (hllRank_le _ _)
  | merge h0 other merged h1 h2 hok ih1 ih2 =>
    rw [HyperLogLog.merge] at hok
    split at hok
    · cases hok
    case isFalse hpe =>
      have hpeq : other.precision = h0.precision := by
        by_contra hne
        exact hpe hne
      cases hok
      refine ⟨ih1.1, ?_⟩
      intro r hrm
      obtain ⟨a, ha, b, hb, rfl⟩ := mem_zipWith_max _ _ _ hrm
      have hba := ih1.2 a ha
      have hbb := ih2.2 b hb
      rw [hpeq] at hbb
      exact max_le hba hbb

/-- C4 witness: the amended bound instantiated on the reachable
precision-4 state obtained by one `addHash 0`, at the written register. -/
theorem C4_hll_register_cap_witness :
    ((HyperLogLog.mk 4 (List.replicate 16 0)).addHash 0).registers.getD 0 0 ≤
      64 - ((HyperLogLog.mk 4 (List.replicate 16 0)).addHash 0).precision + 1 := by
  have hreach : HLLReach ((HyperLogLog.mk 4 (List.replicate 16 0)).addHash 0) :=
    HLLReach.addHash _ 0 (HLLReach.init 4 _ rfl) (by positivity)
  have h := C4_hll_register_cap _ hreach
  refine h.2 _ ?_
  decide

section HLLSetSemantics

lemma add_precision (h : HyperLogLog) (v : List Nat) :
    (h.add v).precision = h.precision := rfl

lemma addAll_precision (h : HyperLogLog) (l : List (List Nat)) :
    (h.addAll l).precision = h.precision := by
  induction l generalizing h with
  | nil => rfl
  | cons v l ih => exact (ih (h.add v)).trans rfl

lemma supRanks_cons (p i : Nat) (v : List Nat) (l : List (List Nat)) :
    supRanks p i (v :: l) =
      if hllIndex p (murmurhash3_64 v 0xadc83b19) = i
      then max (hllRank p (murmurhash3_64 v 0xadc83b19)) (supRanks p i l)
      else supRanks p i l := by
  unfold supRanks
  rw [List.filter_cons]
  split
  case isTrue hcond =>
    simp only [decide_eq_true_eq] at hcond
    rw [if_pos hcond, List.map_cons, List.foldr_cons]
  case isFalse hcond =>
    simp only [decide_eq_true_eq] at hcond
    rw [if_neg hcond]

lemma addAll_registers_get? (l : List (List Nat)) :
    ∀ (h : HyperLogLog) (i : Nat),
      (h.addAll l).registers.get? i =
        (h.registers.get? i).map (fun o => max o (supRanks h.precision i l)) := by
  induction l with
  | nil =>
    intro h i
    show h.registers.get? i = _
    cases hc : h.registers.get? i with
    | none => rfl
    | some x =>
      show some x = some (max x (supRanks h.precision i []))
      rw [show supRanks h.precision i [] = 0 from rfl, Nat.max_zero]
  | cons v l ih =>
    intro h i
    show ((h.add v).addAll l).registers.get? i = _
    rw [ih (h.add v) i, show (h.add v).precision = h.precision from rfl,
      supRanks_cons]
    have hset : (h.add v).registers =
        h.registers.set (hllIndex h.precision (murmurhash3_64 v 0xadc83b19))
          (max (h.registers.getD
            (hllIndex h.precision (murmurhash3_64 v 0xadc83b19)) 0)
            (hllRank h.precision (murmurhash3_64 v 0xadc83b19))) := rfl
    rw [hset]
    by_cases hidx : hllIndex h.precision (murmurhash3_64 v 0xadc83b19) = i
    · rw [if_pos hidx, hidx]
      rw [List.get?_eq_getElem?, List.get?_eq_getElem?, List.getElem?_set]
      rw [if_pos rfl]
      by_cases hlen : i < h.registers.length
      · rw [if_pos hlen]
        rw [List.getD_eq_getElem?_getD, List.getElem?_eq_getElem hlen]
        simp [Nat.max_assoc]
      · rw [if_neg hlen]
        rw [List.getElem?_eq_none (by omega)]
        rfl
    · rw [if_neg hidx]
      rw [List.get?_eq_getElem?, List.get?_eq_getElem?,
        List.getElem?_set_ne hidx]

lemma foldr_max_filter_toFinset {α : Type} [DecidableEq α]
    (p : α → Bool) (f : α → Nat) (l : List α) :
    ((l.filter p).map f).foldr max 0 =
      l.toFinset.sup (fun v => if p v then f v else 0) := by
  induction l with
  | nil => rfl
  | cons a l ih =>
    rw [List.toFinset_cons, Finset.sup_insert, List.filter_cons]
    split
    case isTrue hcond =>
      rw [List.map_cons, List.foldr_cons, ih]
    case isFalse hcond =>
      rw [ih, Nat.zero_max]

lemma supRanks_toFinset_congr (p i : Nat) {l l' : List (List Nat)}
    (hset : l.toFinset = l'.toFinset) :
    supRanks p i l = supRanks p i l' := by
  unfold supRanks
  rw [foldr_max_filter_toFinset, foldr_max_filter_toFinset, hset]

end HLLSetSemantics

/-- C10: `HyperLogLog::add` has set semantics — adding a value twice
equals adding it once, adds of two values commute, and more generally the
register bank after a sequence of adds depends only on the set of distinct
values added (hence so does `cardinality()`, a pure function of the
registers). -/
theorem C10_hll_add_set_semantics (h : HyperLogLog) (v w : List Nat)
    (l l' : List (List Nat)) (hset : l.toFinset = l'.toFinset) :
    (h.add v).add v = h.add v ∧
    (h.add v).add w = (h.add w).add v ∧
    h.addAll l = h.addAll l' := by
  have key : ∀ (l1 l2 : List (List Nat)), l1.toFinset = l2.toFinset →
      h.addAll l1 = h.addAll l2 := by
    intro l1 l2 hs
    refine hll_eq_of_parts _ _ (by rw [addAll_precision, addAll_precision]) ?_
    apply List.ext_get?
    intro i
    rw [addAll_registers_get? l1 h i, addAll_registers_get? l2 h i,
      supRanks_toFinset_congr h.precision i hs]
  refine ⟨?_, ?_, key l l' hset⟩
  · have hk := key [v, v] [v] (by simp)
    simpa [HyperLogLog.addAll] using hk
  · have hk := key [v, w] [w, v] (by ext x; simp [List.mem_toFinset]; tauto)
    simpa [HyperLogLog.addAll] using hk

/-- C10 witness: the set-semantics theorem instantiated at a precision-4
sketch, value `[97]`, and the multiset-vs-set lists `[[97], [97]]` and
`[[97]]`. -/
theorem C10_hll_add_set_semantics_witness :
    ((HyperLogLog.mk 4 (List.replicate 16 0)).add [97]).add [97] =
      (HyperLogLog.mk 4 (List.replicate 16 0)).add [97] ∧
    ((HyperLogLog.mk 4 (List.replicate 16 0)).add [97]).add [98] =
      ((HyperLogLog.mk 4 (List.replicate 16 0)).add [98]).add [97] ∧
    (HyperLogLog.mk 4 (List.replicate 16 0)).addAll [[97], [97]] =
      (HyperLogLog.mk 4 (List.replicate 16 0)).addAll [[97]] := by
  exact C10_hll_add_set_semantics (HyperLogLog.mk 4 (List.replicate 16 0))
    [97] [98] [[97], [97]] [[97]] (by simp)

section RingProofs

lemma or_shift_window (x y w : Nat)
    (hy : ∀ i, (y.testBit i = true ↔
      ∃ j, i ≤ j ∧ j ≤ i + w ∧ x.testBit j = true)) (i : Nat) :
    ((smearStep y (w + 1)).testBit i = true ↔
      ∃ j, i ≤ j ∧ j ≤ i + (2 * w + 1) ∧ x.testBit j = true) := by
  unfold smearStep
  rw [Nat.testBit_or, Nat.testBit_shiftRight, Bool.or_eq_true]
  constructor
  · rintro (hb | hb)
    · obtain ⟨j, h1, h2, h3⟩ := (hy i).mp hb
      exact ⟨j, h1, by omega, h3⟩
    · obtain ⟨j, h1, h2, h3⟩ := (hy (w + 1 + i)).mp hb
      exact ⟨j, by omega, by omega, h3⟩
  · rintro ⟨j, h1, h2, h3⟩
    by_cases hc : j ≤ i + w
    · exact Or.inl ((hy i).mpr ⟨j, h1, hc, h3⟩)
    · exact Or.inr ((hy (w + 1 + i)).mpr ⟨j, by omega, by omega, h3⟩)

lemma testBit_false_of_ge {x m : Nat} (hx : x < 2 ^ m) {j : Nat} (hj : m ≤ j) :
    x.testBit j = false := by
  apply Nat.testBit_lt_two_pow
  exact hx.trans_le (Nat.pow_le_pow_right (by omega) hj)

lemma msb_testBit {x : Nat} (hx : 0 < x) : x.testBit (x.size - 1) = true := by
  have h1 : 2 ^ (x.size - 1) ≤ x := by
    refine Nat.lt_size.mp ?_
    have := Nat.size_pos.mpr hx
    omega
  have h2 : x < 2 ^ x.size := Nat.size_le.mp (le_refl _)
  have hq1 : 1 ≤ x / 2 ^ (x.size - 1) := (Nat.one_le_div_iff (by positivity)).mpr h1
  have hq2 : x / 2 ^ (x.size - 1) < 2 := by
    rw [Nat.div_lt_iff_lt_mul (by positivity : (0:Nat) < 2 ^ (x.size - 1))]
    calc x < 2 ^ x.size := h2
    _ = 2 ^ (x.size - 1) * 2 := by
      rw [← pow_succ]
      congr 1
      have := Nat.size_pos.mpr hx
      omega
    _ = 2 * 2 ^ (x.size - 1) := by ring
  have hq : x / 2 ^ (x.size - 1) = 1 := by omega
  rw [Nat.testBit_to_div_mod, hq]
  decide

lemma smear_chain_eq (x : Nat) (hx : 0 < x) (hlt : x < 2 ^ 64) :
    [1, 2, 4, 8, 16, 32].foldl smearStep x = 2 ^ x.size - 1 := by
  have hw0 : ∀ i, (x.testBit i = true ↔
      ∃ j, i ≤ j ∧ j ≤ i + 0 ∧ x.testBit j = true) := by
    intro i
    constructor
    · intro hb; exact ⟨i, le_refl i, by omega, hb⟩
    · rintro ⟨j, h1, h2, h3⟩
      have : j = i := by omega
      subst this
      exact h3
  have hw1 := or_shift_window x x 0 hw0
  have hw2 := or_shift_window x (smearStep x 1) 1 hw1
  have hw3 := or_shift_window x (smearStep (smearStep x 1) 2) 3 hw2
  have hw4 := or_shift_window x (smearStep (smearStep (smearStep x 1) 2) 4) 7 hw3
  have hw5 := or_shift_window x
    (smearStep (smearStep (smearStep (smearStep x 1) 2) 4) 8) 15 hw4
  have hw6 := or_shift_window x
    (smearStep (smearStep (smearStep (smearStep (smearStep x 1) 2) 4) 8) 16) 31 hw5
  have hsz : x.size ≤ 64 := Nat.size_le.mpr hlt
  have hszpos : 0 < x.size := Nat.size_pos.mpr hx
  have hxlt : x < 2 ^ x.size := Nat.size_le.mp (le_refl _)
  show smearStep (smearStep (smearStep (smearStep (smearStep (smearStep x 1) 2)
    4) 8) 16) 32 = 2 ^ x.size - 1
  apply Nat.eq_of_testBit_eq
  intro i
  rw [Nat.testBit_two_pow_sub_one]
  by_cases hi : i < x.size
  · rw [(hw6 i).mpr ⟨x.size - 1, by omega, by omega, msb_testBit hx⟩]
    simp [hi]
  · cases hb : (smearStep (smearStep (smearStep (smearStep (smearStep
        (smearStep x 1) 2) 4) 8) 16) 32).testBit i with
    | false => simp [hi]
    | true =>
      obtain ⟨j, h1, _, h3⟩ := (hw6 i).mp hb
      rw [testBit_false_of_ge hxlt (by omega)] at h3
      cases h3

lemma roundUp_eq_pow (v : Nat) (h2 : 2 ≤ v) (hle : v ≤ 2 ^ 64) :
    roundUpToPowerOfTwo v = 2 ^ (v - 1).size := by
  rw [roundUpToPowerOfTwo, if_neg (by omega)]
  rw [smear_chain_eq (v - 1) (by omega) (by omega)]
  have : (0:Nat) < 2 ^ (v - 1).size := by positivity
  omega

lemma roundUp_two_le (v : Nat) (h2 : 2 ≤ v) (hle : v ≤ 2 ^ 64) :
    2 ≤ roundUpToPowerOfTwo v := by
  rw [roundUp_eq_pow v h2 hle]
  have : 0 < (v - 1).size := Nat.size_pos.mpr (by omega)
  calc (2:Nat) = 2 ^ 1 := rfl
  _ ≤ 2 ^ (v - 1).size := Nat.pow_le_pow_right (by omega) (by omega)

lemma mod_ne_of_lt_of_sub_lt {a b n : Nat} (hab : a < b) (hsub : b - a < n) :
    a % n ≠ b % n := by
  intro he
  have hdvd : n ∣ b - a := (Nat.modEq_iff_dvd' (le_of_lt hab)).mp he
  have := Nat.le_of_dvd (by omega) hdvd
  omega

lemma ring_push_ok {α : Type} {r : Ring α} {q : List α} (hInv : RingInv r q)
    (hroom : q.length < r.size) (v : α) :
    r.push v = some ({ r with
        cells := r.cells.set (r.enqueue_pos % r.size)
          (r.enqueue_pos + 1, some v)
        enqueue_pos := r.enqueue_pos + 1 }, true) ∧
      RingInv { r with
        cells := r.cells.set (r.enqueue_pos % r.size)
          (r.enqueue_pos + 1, some v)
        enqueue_pos := r.enqueue_pos + 1 } (q ++ [v]) := by
  obtain ⟨⟨k, hk⟩, h2, hmask, hlen, hde, hed, hql, hocc, hfree⟩ := hInv
  have hnpos : 0 < r.size := by omega
  have helt : r.enqueue_pos < r.dequeue_pos + r.size := by omega
  have hmm : r.enqueue_pos &&& r.mask = r.enqueue_pos % r.size := by
    rw [hmask, hk, Nat.and_pow_two_sub_one_eq_mod]
  have hfe := hfree r.enqueue_pos (le_refl _) helt
  have hcell : r.cells.getD (r.enqueue_pos &&& r.mask) (0, none)
      = (r.enqueue_pos, none) := by
    rw [hmm, List.getD_eq_getElem?_getD, ← List.get?_eq_getElem?, hfe]
    rfl
  constructor
  · show (if (r.cells.getD (r.enqueue_pos &&& r.mask) (0, none)).1
        = r.enqueue_pos then _ else _) = _
    rw [hcell, if_pos rfl, hmm]
  · refine ⟨⟨k, hk⟩, h2, hmask, ?_, by simp only; omega, by simp only; omega,
      ?_, ?_, ?_⟩
    · simp only [List.length_set]
      exact hlen
    · simp only [List.length_append, List.length_cons, List.length_nil]
      omega
    · intro j hj1 hj2
      simp only at hj1 hj2 ⊢
      by_cases hje : j = r.enqueue_pos
      · refine ⟨v, ?_, ?_⟩
        · have hq : j - r.dequeue_pos = q.length := by omega
          rw [hq, List.get?_eq_getElem?, List.getElem?_concat_length]
        · rw [hje, List.get?_eq_getElem?,
            List.getElem?_set_self (by rw [hlen]; exact Nat.mod_lt _ hnpos)]
      · have hjlt : j < r.enqueue_pos := by omega
        obtain ⟨w, hw1, hw2⟩ := hocc j hj1 hjlt
        refine ⟨w, ?_, ?_⟩
        · rw [List.get?_eq_getElem?, List.getElem?_append_left (by omega),
            ← List.get?_eq_getElem?]
          exact hw1
        · have hne : j % r.size ≠ r.enqueue_pos % r.size :=
            mod_ne_of_lt_of_sub_lt hjlt (by omega)
          rw [List.get?_eq_getElem?, List.getElem?_set_ne (Ne.symm hne),
            ← List.get?_eq_getElem?]
          exact hw2
    · intro j hj1 hj2
      simp only at hj1 hj2 ⊢
      have hne : r.enqueue_pos % r.size ≠ j % r.size :=
        mod_ne_of_lt_of_sub_lt (by omega) (by omega)
      rw [List.get?_eq_getElem?, List.getElem?_set_ne hne,
        ← List.get?_eq_getElem?]
      exact hfree j (by omega) (by omega)

lemma ring_push_full {α : Type} {r : Ring α} {q : List α} (hInv : RingInv r q)
    (hfull : q.length = r.size) (v : α) :
    r.push v = some (r, false) := by
  obtain ⟨⟨k, hk⟩, h2, hmask, hlen, hde, hed, hql, hocc, hfree⟩ := hInv
  have hnpos : 0 < r.size := by omega
  have heq : r.enqueue_pos = r.dequeue_pos + r.size := by omega
  have hmm : r.enqueue_pos &&& r.mask = r.dequeue_pos % r.size := by
    rw [hmask, hk, Nat.and_pow_two_sub_one_eq_mod, heq, ← hk,
      Nat.add_mod_right]
  obtain ⟨w, hw1, hw2⟩ := hocc r.dequeue_pos (le_refl _) (by omega)
  have hcell : r.cells.getD (r.enqueue_pos &&& r.mask) (0, none)
      = (r.dequeue_pos + 1, some w) := by
    rw [hmm, List.getD_eq_getElem?_getD, ← List.get?_eq_getElem?, hw2]
    rfl
  show (if (r.cells.getD (r.enqueue_pos &&& r.mask) (0, none)).1
      = r.enqueue_pos then _ else _) = _
  rw [hcell]
  rw [if_neg (by simp only; omega), if_pos (by simp only; omega)]

lemma ring_pop_ok {α : Type} {r : Ring α} {x : α} {xs : List α}
    (hInv : RingInv r (x :: xs)) :
    r.pop = some ({ r with
        cells := r.cells.set (r.dequeue_pos % r.size)
          (r.dequeue_pos + r.size, none)
        dequeue_pos := r.dequeue_pos + 1 }, some x) ∧
      RingInv { r with
        cells := r.cells.set (r.dequeue_pos % r.size)
          (r.dequeue_pos + r.size, none)
        dequeue_pos := r.dequeue_pos + 1 } xs := by
  obtain ⟨⟨k, hk⟩, h2, hmask, hlen, hde, hed, hql, hocc, hfree⟩ := hInv
  have hnpos : 0 < r.size := by omega
  have hql' : xs.length + 1 = r.enqueue_pos - r.dequeue_pos := by
    rw [← hql, List.length_cons]
  have hdlt : r.dequeue_pos < r.enqueue_pos := by omega
  have hmm : r.dequeue_pos &&& r.mask = r.dequeue_pos % r.size := by
    rw [hmask, hk, Nat.and_pow_two_sub_one_eq_mod]
  obtain ⟨w, hw1, hw2⟩ := hocc r.dequeue_pos (le_refl _) hdlt
  have hwx : w = x := by
    rw [Nat.sub_self] at hw1
    rw [List.get?_eq_getElem?] at hw1
    simp at hw1
    exact hw1.symm
  subst hwx
  have hcell : r.cells.getD (r.dequeue_pos &&& r.mask) (0, none)
      = (r.dequeue_pos + 1, some w) := by
    rw [hmm, List.getD_eq_getElem?_getD, ← List.get?_eq_getElem?, hw2]
    rfl
  constructor
  · show (if (r.cells.getD (r.dequeue_pos &&& r.mask) (0, none)).1
        = r.dequeue_pos + 1 then _ else _) = _
    rw [hcell, if_pos rfl, hmm]
  · refine ⟨⟨k, hk⟩, h2, hmask, ?_, by simp only; omega, by simp only; omega,
      ?_, ?_, ?_⟩
    · simp only [List.length_set]
      exact hlen
    · simp only
      omega
    · intro j hj1 hj2
      simp only at hj1 hj2 ⊢
      obtain ⟨w', hw1', hw2'⟩ := hocc j (by omega) hj2
      refine ⟨w', ?_, ?_⟩
      · have hidx : j - r.dequeue_pos = (j - (r.dequeue_pos + 1)) + 1 := by
          omega
        rw [hidx] at hw1'
        exact hw1'
      · have hne : r.dequeue_pos % r.size ≠ j % r.size :=
          mod_ne_of_lt_of_sub_lt (by omega) (by omega)
        rw [List.get?_eq_getElem?, List.getElem?_set_ne hne,
          ← List.get?_eq_getElem?]
        exact hw2'
    · intro j hj1 hj2
      simp only at hj1 hj2 ⊢
      by_cases hje : j = r.dequeue_pos + r.size
      · subst hje
        have hjm : (r.dequeue_pos + r.size) % r.size = r.dequeue_pos % r.size := by
          rw [Nat.add_mod_right]
        rw [hjm, List.get?_eq_getElem?,
          List.getElem?_set_self (by rw [hlen]; exact Nat.mod_lt _ hnpos)]
      · have hne : r.dequeue_pos % r.size ≠ j % r.size :=
          mod_ne_of_lt_of_sub_lt (by omega) (by omega)
        rw [List.get?_eq_getElem?, List.getElem?_set_ne hne,
          ← List.get?_eq_getElem?]
        exact hfree j (by omega) (by omega)

lemma ring_pop_empty {α : Type} {r : Ring α} (hInv : RingInv r []) :
    r.pop = some (r, none) := by
  obtain ⟨⟨k, hk⟩, h2, hmask, hlen, hde, hed, hql, hocc, hfree⟩ := hInv
  have hnpos : 0 < r.size := by omega
  have heq : r.enqueue_pos = r.dequeue_pos := by
    rw [List.length_nil] at hql
    omega
  have hmm : r.dequeue_pos &&& r.mask = r.dequeue_pos % r.size := by
    rw [hmask, hk, Nat.and_pow_two_sub_one_eq_mod]
  have hfd := hfree r.dequeue_pos (by omega) (by omega)
  have hcell : r.cells.getD (r.dequeue_pos &&& r.mask) (0, none)
      = (r.dequeue_pos, none) := by
    rw [hmm, List.getD_eq_getElem?_getD, ← List.get?_eq_getElem?, hfd]
    rfl
  show (if (r.cells.getD (r.dequeue_pos &&& r.mask) (0, none)).1
      = r.dequeue_pos + 1 then _ else _) = _
  rw [hcell]
  rw [if_neg (by simp only; omega), if_pos (by simp only; omega)]

lemma run_push_cons {α : Type} (r : Ring α) (v : α) (ops : List (RingOp α))
    (r1 : Ring α) (b : Bool) (h : r.push v = some (r1, b)) :
    r.run (RingOp.push v :: ops) =
      (r1.run ops).map (fun p => (p.1, RingOut.pushed b :: p.2)) := by
  show (match r.push v with
    | none => none
    | some (r1, b) =>
      match r1.run ops with
      | none => none
      | some (r2, outs) => some (r2, RingOut.pushed b :: outs)) = _
  rw [h]
  show (match r1.run ops with
    | none => none
    | some (r2, outs) => some (r2, RingOut.pushed b :: outs)) = _
  cases hr : r1.run ops with
  | none => rfl
  | some p => cases p; rfl

lemma run_pop_cons {α : Type} (r : Ring α) (ops : List (RingOp α))
    (r1 : Ring α) (v : Option α) (h : r.pop = some (r1, v)) :
    r.run (RingOp.pop :: ops) =
      (r1.run ops).map (fun p => (p.1, RingOut.popped v :: p.2)) := by
  show (match r.pop with
    | none => none
    | some (r1, v) =>
      match r1.run ops with
      | none => none
      | some (r2, outs) => some (r2, RingOut.popped v :: outs)) = _
  rw [h]
  show (match r1.run ops with
    | none => none
    | some (r2, outs) => some (r2, RingOut.popped v :: outs)) = _
  cases hr : r1.run ops with
  | none => rfl
  | some p => cases p; rfl

lemma specQueueRun_cons {α : Type} (cap : Nat) (q : List α) (op : RingOp α)
    (ops : List (RingOp α)) :
    specQueueRun cap q (op :: ops) =
      ((specQueueRun cap (specQueueStep cap q op).1 ops).1,
        (specQueueStep cap q op).2 ::
          (specQueueRun cap (specQueueStep cap q op).1 ops).2) := rfl

lemma specQueueStep_push_lt {α : Type} {cap : Nat} {q : List α}
    (hc : q.length < cap) (v : α) :
    specQueueStep cap q (RingOp.push v) = (q ++ [v], RingOut.pushed true) := by
  show (if q.length < cap then (q ++ [v], RingOut.pushed true)
    else (q, RingOut.pushed false)) = _
  rw [if_pos hc]

lemma specQueueStep_push_ge {α : Type} {cap : Nat} {q : List α}
    (hc : ¬ q.length < cap) (v : α) :
    specQueueStep cap q (RingOp.push v) = (q, RingOut.pushed false) := by
  show (if q.length < cap then (q ++ [v], RingOut.pushed true)
    else (q, RingOut.pushed false)) = _
  rw [if_neg hc]

lemma ring_run_refines {α : Type} (ops : List (RingOp α)) :
    ∀ (r : Ring α) (q : List α), RingInv r q →
      ∃ rEnd, r.run ops = some (rEnd, (specQueueRun r.size q ops).2) ∧
        RingInv rEnd (specQueueRun r.size q ops).1 ∧ rEnd.size = r.size := by
  induction ops with
  | nil => intro r q h; exact ⟨r, rfl, h, rfl⟩
  | cons op ops ih =>
    intro r q h
    have hqlen : q.length ≤ r.size := by
      obtain ⟨_, _, _, _, hde, hed, hql, _, _⟩ := h
      omega
    cases op with
    | push v =>
      by_cases hc : q.length < r.size
      · obtain ⟨hpush, hinv1⟩ := ring_push_ok h hc v
        obtain ⟨rEnd, hrun, hinvE, hszE⟩ := ih _ (q ++ [v]) hinv1
        simp only at hrun hinvE hszE
        refine ⟨rEnd, ?_, ?_, hszE⟩
        · rw [run_push_cons _ _ _ _ _ hpush, hrun,
            specQueueRun_cons, specQueueStep_push_lt hc]
          rfl
        · simp only [specQueueRun_cons, specQueueStep_push_lt hc]
          exact hinvE
      · have hfull : q.length = r.size := by omega
        have hpush := ring_push_full h hfull v
        obtain ⟨rEnd, hrun, hinvE, hszE⟩ := ih r q h
        refine ⟨rEnd, ?_, ?_, hszE⟩
        · rw [run_push_cons _ _ _ _ _ hpush, hrun,
            specQueueRun_cons, specQueueStep_push_ge hc]
          rfl
        · simp only [specQueueRun_cons, specQueueStep_push_ge hc]
          exact hinvE
    | pop =>
      cases q with
      | nil =>
        have hpop := ring_pop_empty h
        obtain ⟨rEnd, hrun, hinvE, hszE⟩ := ih r [] h
        refine ⟨rEnd, ?_, ?_, hszE⟩
        · rw [run_pop_cons _ _ _ _ hpop, hrun, specQueueRun_cons]
          rfl
        · simp only [specQueueRun_cons]
          exact hinvE
      | cons x xs =>
        obtain ⟨hpop, hinv1⟩ := ring_pop_ok h
        obtain ⟨rEnd, hrun, hinvE, hszE⟩ := ih _ xs hinv1
        simp only at hrun hinvE hszE
        refine ⟨rEnd, ?_, ?_, hszE⟩
        · rw [run_pop_cons _ _ _ _ hpop, hrun, specQueueRun_cons]
          rfl
        · simp only [specQueueRun_cons]
          exact hinvE

lemma ring_init_inv {α : Type} (size_arg : Nat) (h2 : 2 ≤ size_arg)
    (h64 : size_arg ≤ 2 ^ 64) :
    RingInv (Ring.init α size_arg) [] := by
  have hsz : (Ring.init α size_arg).size = roundUpToPowerOfTwo size_arg := by
    show roundUpToPowerOfTwo (if size_arg = 0 then 1 else size_arg)
      = roundUpToPowerOfTwo size_arg
    rw [if_neg (by omega)]
  have he : (Ring.init α size_arg).enqueue_pos = 0 := rfl
  have hd : (Ring.init α size_arg).dequeue_pos = 0 := rfl
  have hm : (Ring.init α size_arg).mask = (Ring.init α size_arg).size - 1 := rfl
  have hcells : (Ring.init α size_arg).cells =
      (List.range (Ring.init α size_arg).size).map
        (fun i => ((i, none) : Nat × Option α)) := rfl
  refine ⟨?_, ?_, hm, ?_, ?_, ?_, ?_, ?_, ?_⟩
  · exact ⟨(size_arg - 1).size, by rw [hsz, roundUp_eq_pow size_arg h2 h64]⟩
  · rw [hsz]
    exact roundUp_two_le size_arg h2 h64
  · rw [hcells, List.length_map, List.length_range]
  · rw [he, hd]
  · rw [he, hd]
    omega
  · rw [he, hd]
    rfl
  · intro j hj1 hj2
    rw [he] at hj2
    rw [hd] at hj1
    omega
  · intro j hj1 hj2
    rw [hd, Nat.zero_add] at hj2
    have hmod : j % (Ring.init α size_arg).size = j := Nat.mod_eq_of_lt hj2
    rw [hmod, hcells, List.get?_eq_getElem?, List.getElem?_map,
      List.getElem?_range hj2]
    rfl

end RingProofs

/-- C7 counterexample: the claim asserts bounded-FIFO behaviour for every
(power-of-two rounded, ≥ 1) capacity.  At requested capacity `1`
(rounded capacity `1`) the second push — onto an already full ring —
returns `true` (overwriting the cell whose sequence equals the new
ticket), where the bounded FIFO of capacity `1` returns `false`. -/
theorem C7_ring_capacity_one_overwrites :
    (Ring.init Nat 1).size = 1 ∧
    ((Ring.init Nat 1).run [RingOp.push 0, RingOp.push 1]).map Prod.snd =
      some [RingOut.pushed true, RingOut.pushed true] ∧
    (specQueueRun (Ring.init Nat 1).size []
      [RingOp.push 0, RingOp.push 1]).2 =
      [RingOut.pushed true, RingOut.pushed false] := by
  refine ⟨rfl, by decide, by decide⟩

/-- C7 (amended): for every requested capacity `≥ 2` (and `≤ 2 ^ 64`, the
`std::size_t` domain), the single-threaded ring behaves as a FIFO queue
bounded by its power-of-two rounded capacity: no operation diverges and
the sequence of observable outcomes (push booleans and popped values)
equals that of the bounded FIFO reference queue at capacity
`roundUpToPowerOfTwo size_arg`; in particular the capacity-8 scenario of
the claim holds (see the witness).  At rounded capacity `1` the code
violates the claim (`C7_ring_capacity_one_overwrites`). -/
theorem C7_ring_bounded_fifo {α : Type} (size_arg : Nat)
    (h2 : 2 ≤ size_arg) (h64 : size_arg ≤ 2 ^ 64) (ops : List (RingOp α)) :
    ∃ rEnd, (Ring.init α size_arg).run ops =
      some (rEnd, (specQueueRun (roundUpToPowerOfTwo size_arg) [] ops).2) := by
  have hsz : (Ring.init α size_arg).size = roundUpToPowerOfTwo size_arg := by
    show roundUpToPowerOfTwo (if size_arg = 0 then 1 else size_arg) = _
    rw [if_neg (by omega)]
  obtain ⟨rEnd, hrun, _, _⟩ :=
    ring_run_refines ops (Ring.init α size_arg) [] (ring_init_inv size_arg h2 h64)
  rw [hsz] at hrun
  exact ⟨rEnd, hrun⟩

/-- C7 witness: scenario S3 at capacity 8 — pushes of `0..7` all return
`true`, the ninth push returns `false`, eight pops return `0..7` in
order, and a further pop returns `none`. -/
theorem C7_ring_bounded_fifo_witness :
    (((Ring.init Nat 8).run
      [RingOp.push 0, RingOp.push 1, RingOp.push 2, RingOp.push 3,
       RingOp.push 4, RingOp.push 5, RingOp.push 6, RingOp.push 7,
       RingOp.push 42,
       RingOp.pop, RingOp.pop, RingOp.pop, RingOp.pop,
       RingOp.pop, RingOp.pop, RingOp.pop, RingOp.pop,
       RingOp.pop]).map Prod.snd) =
      some [RingOut.pushed true, RingOut.pushed true, RingOut.pushed true,
        RingOut.pushed true, RingOut.pushed true, RingOut.pushed true,
        RingOut.pushed true, RingOut.pushed true, RingOut.pushed false,
        RingOut.popped (some 0), RingOut.popped (some 1),
        RingOut.popped (some 2), RingOut.popped (some 3),
        RingOut.popped (some 4), RingOut.popped (some 5),
        RingOut.popped (some 6), RingOut.popped (some 7),
        RingOut.popped none] := by
  obtain ⟨rEnd, hrun⟩ := C7_ring_bounded_fifo (α := Nat) 8 (by norm_num)
    (by norm_num)
    [RingOp.push 0, RingOp.push 1, RingOp.push 2, RingOp.push 3,
     RingOp.push 4, RingOp.push 5, RingOp.push 6, RingOp.push 7,
     RingOp.push 42,
     RingOp.pop, RingOp.pop, RingOp.pop, RingOp.pop,
     RingOp.pop, RingOp.pop, RingOp.pop, RingOp.pop,
     RingOp.pop]
  rw [hrun]
  simp only [Option.map_some']
  decide

section OrderLemmas

lemma strLtB_irrefl (s : List Char) : strLtB s s = false := by
  induction s with
  | nil => rfl
  | cons a as ih => simp [strLtB, ih]

lemma strLtB_trans : ∀ {a b c : List Char}, strLtB a b = true →
    strLtB b c = true → strLtB a c = true
  | [], b, c, hab, hbc => by
    cases b with
    | nil => cases hab
    | cons b0 bs =>
      cases c with
      | nil => cases hbc
      | cons c0 cs => rfl
  | a0 :: as, b, c, hab, hbc => by
    cases b with
    | nil => cases hab
    | cons b0 bs =>
      cases c with
      | nil => cases hbc
      | cons c0 cs =>
        rw [strLtB] at hab hbc ⊢
        by_cases h1 : a0 < b0
        · by_cases h2 : b0 < c0
          · rw [if_pos (h1.trans h2)]
          · rw [if_pos h1] at hab
            rw [if_neg h2] at hbc
            by_cases h3 : c0 < b0
            · rw [if_pos h3] at hbc
              cases hbc
            · have hbc0 : b0 = c0 := le_antisymm (not_lt.mp h3) (not_lt.mp h2)
              rw [if_pos (hbc0 ▸ h1)]
        · rw [if_neg h1] at hab
          by_cases h1' : b0 < a0
          · rw [if_pos h1'] at hab
            cases hab
          · have hab0 : a0 = b0 := le_antisymm (not_lt.mp h1') (not_lt.mp h1)
            subst hab0
            rw [if_neg h1] at hab
            by_cases h2 : a0 < c0
            · rw [if_pos h2]
            · rw [if_neg h2] at hbc ⊢
              by_cases h3 : c0 < a0
              · rw [if_pos h3] at hbc
                cases hbc
              · rw [if_neg h3] at hbc ⊢
                exact strLtB_trans hab hbc

lemma strLtB_total : ∀ {a b : List Char}, a ≠ b →
    strLtB a b = true ∨ strLtB b a = true
  | [], [], h => absurd rfl h
  | [], _ :: _, _ => Or.inl rfl
  | _ :: _, [], _ => Or.inr rfl
  | a0 :: as, b0 :: bs, h => by
    by_cases h1 : a0 < b0
    · exact Or.inl (by rw [strLtB, if_pos h1])
    · by_cases h2 : b0 < a0
      · exact Or.inr (by rw [strLtB, if_pos h2])
      · have h0 : a0 = b0 := le_antisymm (not_lt.mp h2) (not_lt.mp h1)
        subst h0
        have hne : as ≠ bs := fun he => h (by rw [he])
        rcases strLtB_total hne with hl | hr
        · exact Or.inl (by rw [strLtB, if_neg h1, if_neg h1]; exact hl)
        · exact Or.inr (by rw [strLtB, if_neg h1, if_neg h1]; exact hr)

lemma strLtB_asymm {a b : List Char} (h : strLtB a b = true) :
    strLtB b a = false := by
  cases hba : strLtB b a with
  | false => rfl
  | true =>
    have hcontra := strLtB_trans h hba
    rw [strLtB_irrefl] at hcontra
    cases hcontra

lemma strLt_total {a b : String} (h : a ≠ b) :
    strLt a b = true ∨ strLt b a = true := by
  refine strLtB_total (fun he => h ?_)
  cases a
  cases b
  exact congrArg String.mk he

variable {σ : Type} [LinearOrder σ]

lemma towerLt_trans : ∀ {a b c : Tower σ}, towerLt a b → towerLt b c →
    towerLt a c := by
  rintro a b c (h1 | ⟨h1e, h1s⟩) (h2 | ⟨h2e, h2s⟩)
  · exact Or.inl (h2.trans h1)
  · exact Or.inl (h2e ▸ h1)
  · exact Or.inl (h2.trans_eq h1e.symm)
  · exact Or.inr ⟨h1e.trans h2e, strLtB_trans h1s h2s⟩

lemma towerLt_irrefl (a : Tower σ) : ¬ towerLt a a := by
  rintro (h | ⟨_, hs⟩)
  · exact lt_irrefl _ h
  · rw [strLt, strLtB_irrefl] at hs
    cases hs

lemma towerLt_asymm {a b : Tower σ} (h : towerLt a b) : ¬ towerLt b a :=
  fun h2 => towerLt_irrefl a (towerLt_trans h h2)

lemma towerLt_total {a b : Tower σ} (h : a.user_id ≠ b.user_id) :
    towerLt a b ∨ towerLt b a := by
  rcases lt_trichotomy a.score b.score with hlt | heq | hgt
  · exact Or.inr (Or.inl hlt)
  · rcases strLt_total h with hl | hr
    · exact Or.inl (Or.inr ⟨heq, hl⟩)
    · exact Or.inr (Or.inr ⟨heq.symm, hr⟩)
  · exact Or.inl (Or.inl hgt)

lemma comesBefore_iff_towerLt (t u : Tower σ) :
    comesBefore t u.score u.user_id = true ↔ towerLt t u := by
  unfold comesBefore towerLt
  by_cases h1 : u.score < t.score
  · rw [if_pos h1]
    simp [h1]
  · rw [if_neg h1]
    by_cases h2 : t.score < u.score
    · rw [if_pos h2]
      constructor
      · intro hf; cases hf
      · rintro (hlt | ⟨heq, _⟩)
        · exact absurd hlt h1
        · exact absurd (heq ▸ h2) (lt_irrefl _)
    · rw [if_neg h2]
      have heq : t.score = u.score := le_antisymm (not_lt.mp h1) (not_lt.mp h2)
      constructor
      · intro hs; exact Or.inr ⟨heq, hs⟩
      · rintro (hlt | ⟨_, hs⟩)
        · exact absurd hlt h1
        · exact hs

end OrderLemmas

section WalkLemmas

variable {σ : Type}

lemma findIdxQ_spec {α : Type} (p : α → Bool) :
    ∀ (l : List α) (k : Nat), l.findIdx? p = some k →
      k < l.length ∧ (∃ x, l.get? k = some x ∧ p x = true) := by
  intro l
  induction l with
  | nil => intro k h; cases h
  | cons a as ih =>
    intro k h
    rw [List.findIdx?_cons, List.findIdx?_succ] at h
    by_cases hp : p a = true
    · rw [if_pos hp] at h
      cases h
      exact ⟨by simp, a, rfl, hp⟩
    · rw [if_neg hp] at h
      cases hr : as.findIdx? p with
      | none => rw [hr] at h; cases h
      | some k0 =>
        rw [hr] at h
        have hk : k = k0 + 1 := by
          simpa using h.symm
        subst hk
        obtain ⟨hlt, x, hx, hpx⟩ := ih k0 hr
        exact ⟨by simpa using hlt, x, by simpa using hx, hpx⟩

lemma fwd_some_spec (ts : List (Tower σ)) (lvl p q : Nat)
    (h : fwd ts lvl p = some q) :
    p < q ∧ q ≤ ts.length ∧
      ∃ t, ts.get? (q - 1) = some t ∧ lvl < t.height := by
  unfold fwd at h
  cases hf : (ts.drop p).findIdx? (fun t => lvl < t.height) with
  | none => rw [hf] at h; cases h
  | some k =>
    rw [hf] at h
    have hq : q = p + k + 1 := by simpa using h.symm
    subst hq
    obtain ⟨hlt, t, hget, hpt⟩ := findIdxQ_spec _ _ _ hf
    rw [List.length_drop] at hlt
    refine ⟨by omega, by omega, t, ?_, by simpa using hpt⟩
    rw [List.get?_drop] at hget
    have he : p + k + 1 - 1 = p + k := by omega
    rw [he]
    exact hget

lemma fwd_none_of_ge (ts : List (Tower σ)) (lvl p : Nat)
    (hp : ts.length ≤ p) : fwd ts lvl p = none := by
  unfold fwd
  rw [List.drop_eq_nil_of_le hp, List.findIdx?_nil]

lemma fwd_zero_eq (ts : List (Tower σ)) (hh : ∀ t ∈ ts, 1 ≤ t.height)
    (p : Nat) (hp : p < ts.length) : fwd ts 0 p = some (p + 1) := by
  unfold fwd
  have hdrop : ts.drop p = ts.get ⟨p, hp⟩ :: ts.drop (p + 1) := by
    rw [List.get_eq_getElem, List.getElem_cons_drop]
  rw [hdrop, List.findIdx?_cons]
  have hmem : ts.get ⟨p, hp⟩ ∈ ts := List.get_mem ts p hp
  rw [if_pos (by simpa using hh _ hmem)]

lemma walkLevel_sound (ts : List (Tower σ)) (ok : Nat → Bool) (lvl : Nat)
    (P : Nat → Prop)
    (hstep : ∀ p q, P p → fwd ts lvl p = some q → ok q = true → P q) :
    ∀ fuel p, P p → P (walkLevel ts ok lvl fuel p) := by
  intro fuel
  induction fuel with
  | zero => intro p hp; exact hp
  | succ fuel ih =>
    intro p hp
    rw [walkLevel]
    cases hf : fwd ts lvl p with
    | none => exact hp
    | some q =>
      show P (if ok q = true then walkLevel ts ok lvl fuel q else p)
      by_cases hok : ok q = true
      · rw [if_pos hok]
        exact ih q (hstep p q hp hf hok)
      · rw [if_neg hok]
        exact hp

lemma walkLevel_exit (ts : List (Tower σ)) (ok : Nat → Bool) (lvl : Nat) :
    ∀ (fuel p : Nat), ts.length ≤ fuel + p →
      fwd ts lvl (walkLevel ts ok lvl fuel p) = none ∨
        ∃ q, fwd ts lvl (walkLevel ts ok lvl fuel p) = some q ∧
          ok q = false := by
  intro fuel
  induction fuel with
  | zero =>
    intro p hp
    exact Or.inl (fwd_none_of_ge ts lvl p (by omega))
  | succ fuel ih =>
    intro p hp
    rw [walkLevel]
    cases hf : fwd ts lvl p with
    | none => exact Or.inl hf
    | some q =>
      show fwd ts lvl (if ok q = true then walkLevel ts ok lvl fuel q else p)
          = none ∨ ∃ q2,
          fwd ts lvl (if ok q = true then walkLevel ts ok lvl fuel q else p)
            = some q2 ∧ ok q2 = false
      by_cases hok : ok q = true
      · rw [if_pos hok]
        have hpq := (fwd_some_spec ts lvl p q hf).1
        exact ih q (by omega)
      · rw [if_neg hok]
        exact Or.inr ⟨q, hf, by simpa using hok⟩

lemma runLevels_sound (ts : List (Tower σ)) (ok : Nat → Bool)
    (P : Nat → Prop)
    (hstep : ∀ lvl p q, P p → fwd ts lvl p = some q → ok q = true → P q) :
    ∀ (levels : List Nat) (p : Nat), P p →
      P (runLevels ts ok levels p) := by
  intro levels
  induction levels with
  | nil => intro p hp; exact hp
  | cons l rest ih =>
    intro p hp
    rw [runLevels]
    exact ih _ (walkLevel_sound ts ok l P (fun p q => hstep l p q) _ p hp)

lemma runLevels_append (ts : List (Tower σ)) (ok : Nat → Bool)
    (ls1 ls2 : List Nat) :
    ∀ p, runLevels ts ok (ls1 ++ ls2) p =
      runLevels ts ok ls2 (runLevels ts ok ls1 p) := by
  induction ls1 with
  | nil => intro p; rfl
  | cons l rest ih => intro p; rw [List.cons_append, runLevels, runLevels, ih]

lemma levelsDown_split (cl : Nat) (hcl : 1 ≤ cl) :
    levelsDown cl 0 = levelsDown cl 1 ++ [0] := by
  unfold levelsDown
  rw [Nat.sub_zero]
  have h1 : List.range' 0 cl = 0 :: List.range' 1 (cl - 1) := by
    have hc : cl = (cl - 1) + 1 := by omega
    rw [hc, List.range'_succ]
    norm_num
  rw [h1, List.reverse_cons]

lemma upsert_walk_correct [LinearOrder σ] (ts : List (Tower σ))
    (node : Tower σ) (cl : Nat) (hcl : 1 ≤ cl)
    (hsorted : ts.Pairwise towerLt)
    (hh : ∀ t ∈ ts, 1 ≤ t.height)
    (hid : node.user_id ∉ ts.map (fun t => t.user_id)) :
    runLevels ts (upsertOk ts node.score node.user_id) (levelsDown cl 0) 0
        ≤ ts.length ∧
    (∀ x ∈ ts.take
        (runLevels ts (upsertOk ts node.score node.user_id)
          (levelsDown cl 0) 0),
      towerLt x node) ∧
    (∀ y ∈ ts.drop
        (runLevels ts (upsertOk ts node.score node.user_id)
          (levelsDown cl 0) 0),
      towerLt node y) := by
  set ok := upsertOk ts node.score node.user_id with hok
  set P : Nat → Prop := fun p =>
    p ≤ ts.length ∧ (p = 0 ∨ ∃ t, ts.get? (p - 1) = some t ∧ towerLt t node)
    with hP
  have hstep : ∀ lvl p q, P p → fwd ts lvl p = some q → ok q = true → P q := by
    intro lvl p q _ hf hokq
    obtain ⟨hpq, hqn, t, hget, _⟩ := fwd_some_spec ts lvl p q hf
    refine ⟨hqn, Or.inr ⟨t, hget, ?_⟩⟩
    rw [hok] at hokq
    unfold upsertOk at hokq
    rw [hget] at hokq
    exact (comesBefore_iff_towerLt t node).mp hokq
  have hstart : P 0 := ⟨Nat.zero_le _, Or.inl rfl⟩
  rw [levelsDown_split cl hcl, runLevels_append]
  set pstart := runLevels ts ok (levelsDown cl 1) 0 with hps
  have hPstart : P pstart := runLevels_sound ts ok P hstep _ 0 hstart
  show runLevels ts ok [0] pstart ≤ _ ∧ _
  rw [show runLevels ts ok [0] pstart
    = walkLevel ts ok 0 ts.length pstart from rfl]
  set p0 := walkLevel ts ok 0 ts.length pstart with hp0
  have hP0 : P p0 :=
    walkLevel_sound ts ok 0 P (fun p q => hstep 0 p q) _ pstart hPstart
  have hexit := walkLevel_exit ts ok 0 ts.length pstart (by omega)
  rw [← hp0] at hexit
  have hp0n : p0 ≤ ts.length := hP0.1
  refine ⟨hp0n, ?_, ?_⟩
  · -- everything before the insertion point sorts before the node
    intro x hx
    rcases hP0.2 with h0 | ⟨t, hget, htn⟩
    · rw [h0, List.take_zero] at hx
      cases hx
    · obtain ⟨i, hi, hix⟩ : ∃ i, i < p0 ∧ ts.get? i = some x := by
        obtain ⟨⟨i, hilen⟩, hig⟩ := List.mem_iff_get.mp hx
        rw [List.length_take] at hilen
        refine ⟨i, by omega, ?_⟩
        rw [List.get_take'] at hig
        rw [← hig, List.get?_eq_get]
      by_cases hie : i = p0 - 1
      · subst hie
        rw [hget] at hix
        cases hix
        exact htn
      · have hilt : i < p0 - 1 := by
          rcases hP0.2 with h0 | _
          · omega
          · have : p0 ≠ 0 := by
              intro h0
              rw [h0] at hi
              omega
            omega
        obtain ⟨hplen, t2, hget2, _⟩ :
            p0 - 1 < ts.length ∧ ∃ t2, ts.get? (p0 - 1) = some t2 ∧ t2 = t := by
          obtain ⟨hl, hgg⟩ := List.get?_eq_some.mp hget
          exact ⟨hl, t, hget, rfl⟩
        have hxt : towerLt x t := by
          obtain ⟨hxl, hxg⟩ := List.get?_eq_some.mp hix
          obtain ⟨htl, htg⟩ := List.get?_eq_some.mp hget
          have := List.pairwise_iff_get.mp hsorted ⟨i, hxl⟩ ⟨p0 - 1, htl⟩
            (by simpa using hilt)
          rw [hxg, htg] at this
          exact this
        exact towerLt_trans hxt htn
  · -- everything from the insertion point on sorts after the node
    intro y hy
    rcases hexit with hnone | ⟨q, hsome, hokf⟩
    · -- level-0 forward null: p0 is past the end, nothing is dropped
      have hge : ts.length ≤ p0 := by
        by_contra hlt
        rw [fwd_zero_eq ts hh p0 (by omega)] at hnone
        cases hnone
      rw [List.drop_eq_nil_of_le hge] at hy
      cases hy
    · have hp0lt : p0 < ts.length := by
        by_contra hge
        rw [fwd_none_of_ge ts 0 p0 (by omega)] at hsome
        cases hsome
      have hq : q = p0 + 1 := by
        rw [fwd_zero_eq ts hh p0 hp0lt] at hsome
        simpa using hsome.symm
      subst hq
      -- the first dropped tower fails comes_before, hence the node precedes it
      obtain ⟨t0, hget0⟩ : ∃ t0, ts.get? p0 = some t0 :=
        ⟨ts.get ⟨p0, hp0lt⟩, List.get?_eq_get hp0lt⟩
      have hcbf : comesBefore t0 node.score node.user_id = false := by
        rw [hok] at hokf
        unfold upsertOk at hokf
        have he : p0 + 1 - 1 = p0 := by omega
        rw [he, hget0] at hokf
        exact hokf
      have hnt0 : towerLt node t0 := by
        have hids : node.user_id ≠ t0.user_id := by
          intro heq
          refine hid ?_
          rw [heq]
          refine List.mem_map.mpr ⟨t0, ?_, rfl⟩
          obtain ⟨hl, hg⟩ := List.get?_eq_some.mp hget0
          rw [← hg]
          exact List.get_mem ts _ _
        rcases towerLt_total hids with h | h
        · exact h
        · rw [← comesBefore_iff_towerLt t0 node] at h
          rw [hcbf] at h
          cases h
      obtain ⟨j, hjlen, hjy⟩ : ∃ j, p0 + j < ts.length ∧
          ts.get? (p0 + j) = some y := by
        obtain ⟨⟨j, hjl⟩, hjg⟩ := List.mem_iff_get.mp hy
        rw [List.length_drop] at hjl
        refine ⟨j, by omega, ?_⟩
        rw [← List.get?_drop]
        rw [← hjg, List.get?_eq_get]
      by_cases hj0 : j = 0
      · subst hj0
        rw [Nat.add_zero, hget0] at hjy
        cases hjy
        exact hnt0
      · have ht0y : towerLt t0 y := by
          obtain ⟨hyl, hyg⟩ := List.get?_eq_some.mp hjy
          obtain ⟨h0l, h0g⟩ := List.get?_eq_some.mp hget0
          have := List.pairwise_iff_get.mp hsorted ⟨p0, h0l⟩ ⟨p0 + j, hyl⟩
            (by simp; omega)
          rw [h0g, hyg] at this
          exact this
        exact towerLt_trans hnt0 ht0y

lemma erase_walk_correct [LinearOrder σ] (ts : List (Tower σ)) (ti : Nat)
    (target : Tower σ) (hget : ts.get? ti = some target)
    (hsorted : ts.Pairwise towerLt)
    (hh : ∀ t ∈ ts, 1 ≤ t.height)
    (cl : Nat) (hcl : 1 ≤ cl) :
    fwd ts 0 (updatePos ts (eraseOk ts (ti + 1) target.score target.user_id)
      cl 0) = some (ti + 1) := by
  have htilen : ti < ts.length := (List.get?_eq_some.mp hget).1
  set ok := eraseOk ts (ti + 1) target.score target.user_id with hok
  have hstep : ∀ lvl p q, p ≤ ti → fwd ts lvl p = some q → ok q = true →
      q ≤ ti := by
    intro lvl p q hp hf hokq
    obtain ⟨hpq, hqn, t, hgett, _⟩ := fwd_some_spec ts lvl p q hf
    rw [hok] at hokq
    unfold eraseOk at hokq
    rw [Bool.and_eq_true] at hokq
    obtain ⟨hne, hcb⟩ := hokq
    rw [bne_iff_ne] at hne
    rw [hgett] at hcb
    have hcb2 : comesBefore t target.score target.user_id = true := hcb
    have htlt : towerLt t target := (comesBefore_iff_towerLt t target).mp hcb2
    by_contra hqgt
    have hq2 : ti + 1 < q := by omega
    have hq1 : ti < q - 1 := by omega
    obtain ⟨htl, htg⟩ := List.get?_eq_some.mp hgett
    obtain ⟨hil, hig⟩ := List.get?_eq_some.mp hget
    have hpw := List.pairwise_iff_get.mp hsorted ⟨ti, hil⟩ ⟨q - 1, htl⟩
      (by simpa using hq1)
    rw [hig, htg] at hpw
    exact towerLt_asymm htlt hpw
  rw [updatePos, if_pos (by omega : 0 < cl)]
  rw [levelsDown_split cl hcl, runLevels_append]
  set pstart := runLevels ts ok (levelsDown cl 1) 0 with hpsdef
  have hPs : pstart ≤ ti :=
    runLevels_sound ts ok (fun p => p ≤ ti) hstep _ 0 (Nat.zero_le ti)
  rw [show runLevels ts ok [0] pstart
    = walkLevel ts ok 0 ts.length pstart from rfl]
  set p0 := walkLevel ts ok 0 ts.length pstart with hp0def
  have hP0 : p0 ≤ ti :=
    walkLevel_sound ts ok 0 (fun p => p ≤ ti) (fun p q => hstep 0 p q)
      _ pstart hPs
  have hexit := walkLevel_exit ts ok 0 ts.length pstart (by omega)
  rw [← hp0def] at hexit
  have hp0lt : p0 < ts.length := by omega
  have hfwd0 : fwd ts 0 p0 = some (p0 + 1) := fwd_zero_eq ts hh p0 hp0lt
  rcases hexit with hnone | ⟨q, hsome, hokf⟩
  · rw [hfwd0] at hnone
    cases hnone
  · rw [hfwd0] at hsome
    have hq : q = p0 + 1 := by simpa using hsome.symm
    subst hq
    by_cases hpt : p0 = ti
    · rw [hpt] at hfwd0
      rw [hpt]
      exact hfwd0
    · exfalso
      have hp0ti : p0 < ti := by omega
      obtain ⟨t0, hget0⟩ : ∃ t0, ts.get? p0 = some t0 :=
        ⟨_, List.get?_eq_get hp0lt⟩
      have htlt : towerLt t0 target := by
        obtain ⟨h0l, h0g⟩ := List.get?_eq_some.mp hget0
        obtain ⟨hil, hig⟩ := List.get?_eq_some.mp hget
        have hpw := List.pairwise_iff_get.mp hsorted ⟨p0, h0l⟩ ⟨ti, hil⟩
          (by simpa using hp0ti)
        rw [h0g, hig] at hpw
        exact hpw
      have hoktrue : ok (p0 + 1) = true := by
        rw [hok]
        unfold eraseOk
        rw [Bool.and_eq_true]
        constructor
        · rw [bne_iff_ne]
          omega
        · show (match ts.get? (p0 + 1 - 1) with
            | some tw => comesBefore tw target.score target.user_id
            | none => false) = true
          rw [show p0 + 1 - 1 = p0 from by omega, hget0]
          exact (comesBefore_iff_towerLt t0 target).mpr htlt
      rw [hoktrue] at hokf
      cases hokf

lemma shrinkLevel_le (ts : List (Tower σ)) : ∀ cl, shrinkLevel ts cl ≤ cl := by
  intro cl
  induction cl using Nat.strong_induction_on with
  | _ cl ih =>
    match cl with
    | 0 => exact le_refl _
    | 1 => exact le_refl _
    | n + 2 =>
      rw [shrinkLevel]
      split
      · exact (ih (n + 1) (by omega)).trans (by omega)
      · exact le_refl _

lemma one_le_shrinkLevel (ts : List (Tower σ)) :
    ∀ cl, 1 ≤ cl → 1 ≤ shrinkLevel ts cl := by
  intro cl
  induction cl using Nat.strong_induction_on with
  | _ cl ih =>
    match cl with
    | 0 => intro h; cases h
    | 1 => intro _; exact le_refl _
    | n + 2 =>
      intro _
      rw [shrinkLevel]
      split
      · exact ih (n + 1) (by omega) (by omega)
      · omega

lemma height_le_shrinkLevel (ts : List (Tower σ)) :
    ∀ cl, (∀ t ∈ ts, t.height ≤ cl) →
      ∀ t ∈ ts, t.height ≤ shrinkLevel ts cl := by
  intro cl
  induction cl using Nat.strong_induction_on with
  | _ cl ih =>
    match cl with
    | 0 => intro h; exact h
    | 1 => intro h; exact h
    | n + 2 =>
      intro h
      rw [shrinkLevel]
      split
      case isTrue hnone =>
        refine ih (n + 1) (by omega) ?_
        intro t ht
        unfold fwd at hnone
        have hfi : (ts.drop 0).findIdx? (fun t2 => decide (n + 1 < t2.height))
            = none := by
          cases hfi2 : (ts.drop 0).findIdx?
              (fun t2 => decide (n + 1 < t2.height)) with
          | none => rfl
          | some k =>
            rw [hfi2] at hnone
            simp at hnone
        rw [List.findIdx?_eq_none_iff] at hfi
        have h2 := hfi t (by simpa using ht)
        simp at h2
        omega
      case isFalse hsome => exact h

lemma get?_decomp {α : Type} (l : List α) (ti : Nat) (a : α)
    (h : l.get? ti = some a) :
    l = l.take ti ++ a :: l.drop (ti + 1) := by
  obtain ⟨hlt, hget⟩ := List.get?_eq_some.mp h
  conv_lhs => rw [← List.take_append_drop ti l]
  congr 1
  rw [← List.getElem_cons_drop l ti hlt]
  congr 1

lemma not_mem_eraseIdx_of_nodup {α : Type} (l : List α) (ti : Nat) (a : α)
    (hnd : l.Nodup) (h : l.get? ti = some a) : a ∉ l.eraseIdx ti := by
  rw [List.eraseIdx_eq_take_drop_succ]
  rw [get?_decomp l ti a h, List.nodup_middle] at hnd
  exact (List.nodup_cons.mp hnd).1

lemma mem_eraseIdx_of_ne {α : Type} (l : List α) (ti : Nat) (a x : α)
    (h : l.get? ti = some a) (hx : x ∈ l) (hne : x ≠ a) :
    x ∈ l.eraseIdx ti := by
  rw [List.eraseIdx_eq_take_drop_succ]
  rw [get?_decomp l ti a h] at hx
  rcases List.mem_append.mp hx with h1 | h2
  · exact List.mem_append.mpr (Or.inl h1)
  · rcases List.mem_cons.mp h2 with rfl | h3
    · exact absurd rfl hne
    · exact List.mem_append.mpr (Or.inr h3)

lemma map_eraseIdx {α β : Type} (f : α → β) (l : List α) (ti : Nat) :
    (l.eraseIdx ti).map f = (l.map f).eraseIdx ti := by
  rw [List.eraseIdx_eq_take_drop_succ, List.eraseIdx_eq_take_drop_succ,
    List.map_append, List.map_take, List.map_drop]

end WalkLemmas

section EraseUpsertLemmas

variable {σ : Type} [LinearOrder σ] {ml : Nat}

lemma erase_of_not_mem (sl : SkipList σ) (id : String) (hInv : SLInv ml sl)
    (h : id ∉ sl.towers.map (fun t => t.user_id)) : sl.erase id = sl := by
  obtain ⟨_, _, hcoh, _⟩ := hInv
  have hnotidx : id ∉ sl.index := fun hmem => h ((hcoh id).mp hmem)
  simp only [SkipList.erase]
  rw [if_neg hnotidx]

lemma erase_of_mem (sl : SkipList σ) (id : String) (hInv : SLInv ml sl)
    (h : id ∈ sl.towers.map (fun t => t.user_id)) :
    ∃ ti target, sl.towers.get? ti = some target ∧ target.user_id = id ∧
      ti < sl.towers.length ∧
      sl.erase id = ⟨sl.towers.eraseIdx ti, sl.maxLevels,
        shrinkLevel (sl.towers.eraseIdx ti) sl.currentLevel,
        sl.size - 1, sl.index.erase id⟩ := by
  obtain ⟨hsort, hnodup, hcoh, hidxnd, hsize, hml, hcl1, hclml, hheights⟩ := hInv
  have hidx : id ∈ sl.index := (hcoh id).mpr h
  obtain ⟨t0, ht0mem, ht0id⟩ := List.mem_map.mp h
  have hany : sl.towers.any (fun tw => tw.user_id = id) = true :=
    List.any_eq_true.mpr ⟨t0, ht0mem, by simp [ht0id]⟩
  have hsome : (sl.towers.findIdx? (fun tw => tw.user_id = id)).isSome = true := by
    rw [List.findIdx?_isSome, hany]
  obtain ⟨ti, hfind⟩ := Option.isSome_iff_exists.mp hsome
  obtain ⟨htilen, target, hget, hptarget⟩ := findIdxQ_spec _ _ _ hfind
  have htid : target.user_id = id := by simpa using hptarget
  refine ⟨ti, target, hget, htid, htilen, ?_⟩
  have hfwd0 := erase_walk_correct sl.towers ti target hget hsort
    (fun t ht => (hheights t ht).1) sl.currentLevel hcl1
  have hheight1 : 1 ≤ target.height := by
    refine (hheights target ?_).1
    rw [List.mem_iff_get?]
    exact ⟨ti, hget⟩
  have hrem : ((List.range target.height).any
      (fun lvl => fwd sl.towers lvl
        (updatePos sl.towers
          (eraseOk sl.towers (ti + 1) target.score target.user_id)
          sl.currentLevel lvl) = some (ti + 1))) = true := by
    refine List.any_eq_true.mpr ⟨0, List.mem_range.mpr (by omega), ?_⟩
    simpa using hfwd0
  simp only [SkipList.erase]
  rw [if_pos hidx]
  simp only [hfind]
  simp only [hget]
  rw [if_pos hrem]

lemma erase_inv (sl : SkipList σ) (id : String) (hInv : SLInv ml sl) :
    SLInv ml (sl.erase id) ∧
    id ∉ (sl.erase id).towers.map (fun t => t.user_id) ∧
    (id ∈ sl.towers.map (fun t => t.user_id) →
      (sl.erase id).towers.length = sl.towers.length - 1) ∧
    (id ∉ sl.towers.map (fun t => t.user_id) → sl.erase id = sl) := by
  by_cases h : id ∈ sl.towers.map (fun t => t.user_id)
  · obtain ⟨ti, target, hget, htid, htilen, herase⟩ := erase_of_mem sl id hInv h
    obtain ⟨hsort, hnodup, hcoh, hidxnd, hsize, hml, hcl1, hclml, hheights⟩ :=
      hInv
    have hmapget : (sl.towers.map (fun t => t.user_id)).get? ti = some id := by
      rw [List.get?_eq_getElem?, List.getElem?_map, ← List.get?_eq_getElem?,
        hget]
      simp [htid]
    have hmapsplit : (sl.towers.eraseIdx ti).map (fun t => t.user_id)
        = (sl.towers.map (fun t => t.user_id)).eraseIdx ti :=
      map_eraseIdx _ _ _
    have hnotmem : id ∉ (sl.towers.eraseIdx ti).map (fun t => t.user_id) := by
      rw [hmapsplit]
      exact not_mem_eraseIdx_of_nodup _ ti id hnodup hmapget
    have hsub : (sl.towers.eraseIdx ti).Sublist sl.towers :=
      List.eraseIdx_sublist _ _
    refine ⟨?_, ?_, ?_, ?_⟩
    · rw [herase]
      refine ⟨hsort.sublist hsub, ?_, ?_, List.Nodup.erase _ hidxnd, ?_, hml,
        ?_, ?_, ?_⟩
      · rw [hmapsplit]
        exact (List.eraseIdx_sublist _ ti).nodup hnodup
      · intro x
        show x ∈ sl.index.erase id ↔ _
        rw [hidxnd.mem_erase_iff]
        constructor
        · rintro ⟨hxne, hxidx⟩
          have hxmap := (hcoh x).mp hxidx
          rw [hmapsplit]
          exact mem_eraseIdx_of_ne _ ti id x hmapget hxmap hxne
        · intro hxmem
          have hxne : x ≠ id := by
            intro he
            subst he
            exact hnotmem hxmem
          refine ⟨hxne, (hcoh x).mpr ?_⟩
          rw [hmapsplit] at hxmem
          exact ((List.eraseIdx_sublist _ _).subset) hxmem
      · show sl.size - 1 = _
        rw [hsize, List.length_eraseIdx, if_pos htilen]
      · show 1 ≤ shrinkLevel _ _
        exact one_le_shrinkLevel _ _ hcl1
      · show shrinkLevel _ _ ≤ ml
        exact (shrinkLevel_le _ _).trans hclml
      · intro t ht
        have htmem : t ∈ sl.towers := hsub.subset ht
        exact ⟨(hheights t htmem).1,
          height_le_shrinkLevel _ sl.currentLevel
            (fun t2 ht2 => (hheights t2 (hsub.subset ht2)).2) t ht⟩
    · rw [herase]
      exact hnotmem
    · intro _
      rw [herase]
      show (sl.towers.eraseIdx ti).length = _
      rw [List.length_eraseIdx, if_pos htilen]
    · intro hnot
      exact absurd h hnot
  · have heq := erase_of_not_mem sl id hInv h
    rw [heq]
    exact ⟨hInv, h, fun hmem => absurd hmem h, fun _ => rfl⟩

lemma insert_length {α : Type} (ts : List α) (p0 : Nat) (node : α)
    (hp : p0 ≤ ts.length) :
    (ts.take p0 ++ node :: ts.drop p0).length = ts.length + 1 := by
  rw [List.length_append, List.length_cons, List.length_take,
    List.length_drop]
  omega

lemma insert_sorted (ts : List (Tower σ)) (node : Tower σ) (p0 : Nat)
    (hsorted : ts.Pairwise towerLt)
    (hbefore : ∀ x ∈ ts.take p0, towerLt x node)
    (hafter : ∀ y ∈ ts.drop p0, towerLt node y) :
    (ts.take p0 ++ node :: ts.drop p0).Pairwise towerLt := by
  rw [List.pairwise_append]
  refine ⟨hsorted.sublist (List.take_sublist _ _), ?_, ?_⟩
  · rw [List.pairwise_cons]
    exact ⟨hafter, hsorted.sublist (List.drop_sublist _ _)⟩
  · intro a ha b hb
    rcases List.mem_cons.mp hb with rfl | hb2
    · exact hbefore a ha
    · have hts : List.Pairwise towerLt (ts.take p0 ++ ts.drop p0) := by
        rw [List.take_append_drop]
        exact hsorted
      exact (List.pairwise_append.mp hts).2.2 a ha b hb2

omit [LinearOrder σ] in
lemma insert_mem_map_iff (ts : List (Tower σ)) (node : Tower σ) (p0 : Nat)
    (x : String) :
    (x ∈ (ts.take p0 ++ node :: ts.drop p0).map (fun t => t.user_id)) ↔
      (x = node.user_id ∨ x ∈ ts.map (fun t => t.user_id)) := by
  rw [List.map_append, List.map_cons, List.mem_append, List.mem_cons]
  constructor
  · rintro (h1 | h2 | h3)
    · obtain ⟨t, ht, rfl⟩ := List.mem_map.mp h1
      exact Or.inr (List.mem_map.mpr ⟨t, List.take_subset _ _ ht, rfl⟩)
    · exact Or.inl h2
    · obtain ⟨t, ht, rfl⟩ := List.mem_map.mp h3
      exact Or.inr (List.mem_map.mpr ⟨t, List.drop_subset _ _ ht, rfl⟩)
  · rintro (h1 | h2)
    · exact Or.inr (Or.inl h1)
    · obtain ⟨t, ht, rfl⟩ := List.mem_map.mp h2
      rw [← List.take_append_drop p0 ts] at ht
      rcases List.mem_append.mp ht with h3 | h4
      · exact Or.inl (List.mem_map.mpr ⟨t, h3, rfl⟩)
      · exact Or.inr (Or.inr (List.mem_map.mpr ⟨t, h4, rfl⟩))

omit [LinearOrder σ] in
lemma insert_map_nodup (ts : List (Tower σ)) (node : Tower σ) (p0 : Nat)
    (hnodup : (ts.map (fun t => t.user_id)).Nodup)
    (hnm : node.user_id ∉ ts.map (fun t => t.user_id)) :
    ((ts.take p0 ++ node :: ts.drop p0).map (fun t => t.user_id)).Nodup := by
  rw [List.map_append, List.map_cons, List.nodup_middle, List.nodup_cons]
  constructor
  · intro hmem
    refine hnm ?_
    rw [← List.map_append, List.take_append_drop] at hmem
    exact hmem
  · rw [← List.map_append, List.take_append_drop]
    exact hnodup

lemma upsert_inv (sl : SkipList σ) (id : String) (score : σ) (ts0 : Int)
    (lvl : Nat) (hInv : SLInv ml sl) (h1 : 1 ≤ lvl) (h2 : lvl ≤ ml) :
    SLInv ml (sl.upsert id score ts0 lvl) ∧
    (sl.upsert id score ts0 lvl).towers.length
      = (sl.erase id).towers.length + 1 := by
  obtain ⟨hInv1, hnm, hlen1, _⟩ := erase_inv sl id hInv
  obtain ⟨hsort, hnodup, hcoh, hidxnd, hsize, hml, hcl1, hclml, hheights⟩ :=
    hInv1
  have hwalk := upsert_walk_correct (sl.erase id).towers
    (⟨id, score, ts0, lvl⟩ : Tower σ) (sl.erase id).currentLevel hcl1 hsort
    (fun t ht => (hheights t ht).1) hnm
  simp only at hwalk
  obtain ⟨hp0len, hbefore, hafter⟩ := hwalk
  have hup : sl.upsert id score ts0 lvl =
      ⟨(sl.erase id).towers.take
          (runLevels (sl.erase id).towers
            (upsertOk (sl.erase id).towers score id)
            (levelsDown (sl.erase id).currentLevel 0) 0) ++
        (⟨id, score, ts0, lvl⟩ : Tower σ) ::
        (sl.erase id).towers.drop
          (runLevels (sl.erase id).towers
            (upsertOk (sl.erase id).towers score id)
            (levelsDown (sl.erase id).currentLevel 0) 0),
        (sl.erase id).maxLevels,
        max (sl.erase id).currentLevel lvl,
        (sl.erase id).size + 1,
        id :: (sl.erase id).index⟩ := rfl
  rw [hup]
  constructor
  · refine ⟨?_, ?_, ?_, ?_, ?_, hml, ?_, ?_, ?_⟩
    · exact insert_sorted _ _ _ hsort hbefore hafter
    · exact insert_map_nodup _ _ _ hnodup hnm
    · intro x
      show x ∈ id :: (sl.erase id).index ↔ _
      rw [List.mem_cons, insert_mem_map_iff]
      constructor
      · rintro (rfl | hx)
        · exact Or.inl rfl
        · exact Or.inr ((hcoh x).mp hx)
      · rintro (rfl | hx)
        · exact Or.inl rfl
        · exact Or.inr ((hcoh x).mpr hx)
    · show (id :: (sl.erase id).index).Nodup
      rw [List.nodup_cons]
      exact ⟨fun hmem => hnm ((hcoh id).mp hmem), hidxnd⟩
    · show (sl.erase id).size + 1 = _
      rw [hsize, insert_length _ _ _ hp0len]
    · show 1 ≤ max (sl.erase id).currentLevel lvl
      omega
    · show max (sl.erase id).currentLevel lvl ≤ ml
      omega
    · intro t ht
      rcases List.mem_append.mp ht with h3 | h4
      · have htmem : t ∈ (sl.erase id).towers := List.take_subset _ _ h3
        have := hheights t htmem
        constructor
        · omega
        · show t.height ≤ max (sl.erase id).currentLevel lvl
          omega
      · rcases List.mem_cons.mp h4 with rfl | h5
        · exact ⟨h1, le_max_right _ _⟩
        · have htmem : t ∈ (sl.erase id).towers := List.drop_subset _ _ h5
          have := hheights t htmem
          constructor
          · omega
          · show t.height ≤ max (sl.erase id).currentLevel lvl
            omega
  · show ((sl.erase id).towers.take _ ++ _ :: (sl.erase id).towers.drop _).length
      = _
    rw [insert_length _ _ _ hp0len]

lemma slreach_inv (sl : SkipList σ) (hr : SLReach σ ml sl) : SLInv ml sl := by
  induction hr with
  | init h1 h32 =>
    refine ⟨List.Pairwise.nil, List.nodup_nil, ?_, List.nodup_nil, rfl, rfl,
      le_refl 1, h1, ?_⟩
    · intro id
      constructor
      · intro h
        cases h
      · intro h
        cases h
    · intro t ht
      cases ht
  | upsert sl id score ts0 lvl hr h1 h2 ih =>
    exact (upsert_inv sl id score ts0 lvl ih h1 h2).1
  | erase sl id hr ih =>
    exact (erase_inv sl id ih).1

end EraseUpsertLemmas

/-- C3: for every skip list reachable by any sequence of `upsert` and
`erase` operations from a freshly constructed list (tower levels drawn in
`[1, max_levels]` as `random_level()` does), the level-0 traversal is
strictly sorted by descending score with ties broken by ascending id, its
ids are pairwise distinct, and the id index holds exactly the ids present
on the chain — i.e. the traversal visits exactly one node per present id,
in the order of the sort of the present `(user_id, score)` pairs by
`(−score, user_id)`. -/
theorem C3_skiplist_sorted_traversal {σ : Type} [LinearOrder σ] (ml : Nat)
    (sl : SkipList σ) (hr : SLReach σ ml sl) :
    sl.towers.Pairwise towerLt ∧
    (sl.towers.map (fun t => t.user_id)).Nodup ∧
    (∀ id, id ∈ sl.index ↔ id ∈ sl.towers.map (fun t => t.user_id)) := by
  obtain ⟨h1, h2, h3, _⟩ := slreach_inv sl hr
  exact ⟨h1, h2, h3⟩

/-- C3 witness: the sortedness, id-uniqueness and index-coherence (at id
"a") of the concrete reachable two-element list built by upserting
"b" with score 5 and then "a" with score 7. -/
theorem C3_skiplist_sorted_traversal_witness :
    (((SkipList.initSL Int 16).upsert "b" 5 0 1).upsert "a" 7 0 2).towers.Pairwise
      towerLt ∧
    ((((SkipList.initSL Int 16).upsert "b" 5 0 1).upsert "a" 7 0 2).towers.map
      (fun t => t.user_id)).Nodup ∧
    ("a" ∈ (((SkipList.initSL Int 16).upsert "b" 5 0 1).upsert "a" 7 0 2).index ↔
      "a" ∈ (((SkipList.initSL Int 16).upsert "b" 5 0 1).upsert "a" 7 0 2).towers.map
        (fun t => t.user_id)) := by
  have hr : SLReach Int 16
      (((SkipList.initSL Int 16).upsert "b" 5 0 1).upsert "a" 7 0 2) :=
    SLReach.upsert _ "a" 7 0 2
      (SLReach.upsert _ "b" 5 0 1
        (SLReach.init (by norm_num) (by norm_num))
        (by norm_num) (by norm_num))
      (by norm_num) (by norm_num)
  have h := C3_skiplist_sorted_traversal 16 _ hr
  exact ⟨h.1, h.2.1, h.2.2 "a"⟩

lemma lbreach_inv {σ : Type} [LinearOrder σ] [Zero σ] [Add σ]
    (decayFn : σ → Int → Int → σ) (lb : Leaderboard σ)
    (hr : LBReach σ decayFn lb) :
    SLInv 16 lb.skip_list ∧
    (0 < lb.max_users → lb.skip_list.size ≤ lb.max_users) := by
  induction hr with
  | init decay_factor max_users =>
    refine ⟨slreach_inv _ (SLReach.init (by norm_num) (by norm_num)), ?_⟩
    intro _
    show (0 : Nat) ≤ max_users
    omega
  | update lb user_id points timestamp now_fallback lvl hr h1 h2 ih =>
    obtain ⟨hInv, hsz⟩ := ih
    by_cases h0 : points = 0 ∧ lb.skip_list.find user_id = none
    · have heq : lb.updateUser decayFn user_id points timestamp now_fallback lvl
          = lb := by
        simp only [Leaderboard.updateUser]
        rw [if_pos h0]
      rw [heq]
      exact ⟨hInv, hsz⟩
    · have hup := upsert_inv lb.skip_list user_id
        (match lb.skip_list.find user_id with
         | some existing => decayFn existing.score existing.last_update
             (if 0 < timestamp then timestamp else now_fallback) + points
         | none => points)
        (if 0 < timestamp then timestamp else now_fallback) lvl hInv h1 h2
      set sl1 := lb.skip_list.upsert user_id
        (match lb.skip_list.find user_id with
         | some existing => decayFn existing.score existing.last_update
             (if 0 < timestamp then timestamp else now_fallback) + points
         | none => points)
        (if 0 < timestamp then timestamp else now_fallback) lvl with hsl1
      have hres : lb.updateUser decayFn user_id points timestamp now_fallback lvl
          = { lb with skip_list :=
              if 0 < lb.max_users ∧ lb.max_users < sl1.size then
                match sl1.tail with
                | some tl =>
                  if tl.user_id ≠ user_id ∨ lb.max_users < sl1.size then
                    sl1.erase tl.user_id
                  else sl1
                | none => sl1
              else sl1 } := by
        simp only [Leaderboard.updateUser]
        rw [if_neg h0]
      rw [hres]
      have hlb_len : lb.skip_list.size = lb.skip_list.towers.length := hInv.2.2.2.2.1
      have hsl1_len : sl1.size = sl1.towers.length := hup.1.2.2.2.2.1
      have herase_le : (lb.skip_list.erase user_id).towers.length
          ≤ lb.skip_list.towers.length := by
        by_cases hm : user_id ∈ lb.skip_list.towers.map (fun t => t.user_id)
        · have := (erase_inv lb.skip_list user_id hInv).2.2.1 hm
          omega
        · have := (erase_inv lb.skip_list user_id hInv).2.2.2 hm
          rw [this]
      have hsl1_bound : sl1.towers.length ≤ lb.skip_list.towers.length + 1 := by
        have := hup.2
        omega
      by_cases hmu : 0 < lb.max_users ∧ lb.max_users < sl1.size
      · have hne : sl1.towers ≠ [] := by
          intro hnil
          rw [hnil] at hsl1_len
          simp at hsl1_len
          omega
        obtain ⟨tl, htl⟩ : ∃ tl, sl1.towers.getLast? = some tl := by
          cases hgl : sl1.towers.getLast? with
          | none => exact absurd (List.getLast?_eq_none.mp hgl) hne
          | some tl => exact ⟨tl, rfl⟩
        have htl' : sl1.tail = some tl := htl
        have hsl2 : (if 0 < lb.max_users ∧ lb.max_users < sl1.size then
              match sl1.tail with
              | some tl2 =>
                if tl2.user_id ≠ user_id ∨ lb.max_users < sl1.size then
                  sl1.erase tl2.user_id
                else sl1
              | none => sl1
            else sl1) = sl1.erase tl.user_id := by
          rw [if_pos hmu, htl']
          show (if tl.user_id ≠ user_id ∨ lb.max_users < sl1.size then
              sl1.erase tl.user_id else sl1) = sl1.erase tl.user_id
          rw [if_pos (Or.inr hmu.2)]
        rw [hsl2]
        have htlmem : tl ∈ sl1.towers := List.mem_of_mem_getLast? htl
        have htlid : tl.user_id ∈ sl1.towers.map (fun t => t.user_id) :=
          List.mem_map.mpr ⟨tl, htlmem, rfl⟩
        obtain ⟨hInv2, _, hlen2, _⟩ := erase_inv sl1 tl.user_id hup.1
        refine ⟨hInv2, fun _ => ?_⟩
        show (sl1.erase tl.user_id).size ≤ lb.max_users
        have h5 : (sl1.erase tl.user_id).size
            = (sl1.erase tl.user_id).towers.length := hInv2.2.2.2.2.1
        have h6 := hlen2 htlid
        have h7 := hsz hmu.1
        have h8 := hup.2
        omega
      · rw [if_neg hmu]
        refine ⟨hup.1, fun hpos => ?_⟩
        have hpos' : 0 < lb.max_users := hpos
        have hlt : ¬ lb.max_users < sl1.size := fun h => hmu ⟨hpos', h⟩
        show sl1.size ≤ lb.max_users
        omega

/-- C5: every leaderboard reachable by `update_user` calls from a
construction with `max_users > 0` keeps `size ≤ max_users`; moreover on
any `update_user` call that reaches the eviction check with the
post-upsert size exceeding `max_users`, the tail node exists and the
returned skip list is exactly the post-upsert list with that tail's id
erased (the eviction's inner guard re-reads the same size, so it always
fires there). -/
theorem C5_leaderboard_capacity {σ : Type} [LinearOrder σ] [Zero σ] [Add σ]
    (decayFn : σ → Int → Int → σ) (lb : Leaderboard σ)
    (hr : LBReach σ decayFn lb) (hpos : 0 < lb.max_users) :
    lb.skip_list.size ≤ lb.max_users ∧
    (∀ (user_id : String) (points : σ) (timestamp now_fallback : Int)
      (lvl : Nat) (sl1 : SkipList σ), 1 ≤ lvl → lvl ≤ 16 →
      ¬(points = 0 ∧ lb.skip_list.find user_id = none) →
      sl1 = lb.skip_list.upsert user_id
        (match lb.skip_list.find user_id with
         | some existing => decayFn existing.score existing.last_update
             (if 0 < timestamp then timestamp else now_fallback) + points
         | none => points)
        (if 0 < timestamp then timestamp else now_fallback) lvl →
      lb.max_users < sl1.size →
      ∃ tl, sl1.tail = some tl ∧
        (lb.updateUser decayFn user_id points timestamp now_fallback lvl).skip_list
          = sl1.erase tl.user_id) := by
  obtain ⟨hInv, hsz⟩ := lbreach_inv decayFn lb hr
  refine ⟨hsz hpos, ?_⟩
  intro user_id points timestamp now_fallback lvl sl1 h1 h2 h0 hsl1 hmu2
  have hup := upsert_inv lb.skip_list user_id
    (match lb.skip_list.find user_id with
     | some existing => decayFn existing.score existing.last_update
         (if 0 < timestamp then timestamp else now_fallback) + points
     | none => points)
    (if 0 < timestamp then timestamp else now_fallback) lvl hInv h1 h2
  rw [← hsl1] at hup
  have hsl1_len : sl1.size = sl1.towers.length := hup.1.2.2.2.2.1
  have hne : sl1.towers ≠ [] := by
    intro hnil
    rw [hnil] at hsl1_len
    simp at hsl1_len
    omega
  obtain ⟨tl, htl⟩ : ∃ tl, sl1.towers.getLast? = some tl := by
    cases hgl : sl1.towers.getLast? with
    | none => exact absurd (List.getLast?_eq_none.mp hgl) hne
    | some tl => exact ⟨tl, rfl⟩
  have htl' : sl1.tail = some tl := htl
  refine ⟨tl, htl', ?_⟩
  have hres : lb.updateUser decayFn user_id points timestamp now_fallback lvl
      = { lb with skip_list :=
          if 0 < lb.max_users ∧ lb.max_users < sl1.size then
            match sl1.tail with
            | some tl2 =>
              if tl2.user_id ≠ user_id ∨ lb.max_users < sl1.size then
                sl1.erase tl2.user_id
              else sl1
            | none => sl1
          else sl1 } := by
    simp only [Leaderboard.updateUser]
    rw [if_neg h0, ← hsl1]
  rw [hres]
  show (if 0 < lb.max_users ∧ lb.max_users < sl1.size then
      match sl1.tail with
      | some tl2 =>
        if tl2.user_id ≠ user_id ∨ lb.max_users < sl1.size then
          sl1.erase tl2.user_id
        else sl1
      | none => sl1
    else sl1) = sl1.erase tl.user_id
  rw [if_pos ⟨hpos, hmu2⟩, htl']
  show (if tl.user_id ≠ user_id ∨ lb.max_users < sl1.size then
      sl1.erase tl.user_id else sl1) = sl1.erase tl.user_id
  rw [if_pos (Or.inr hmu2)]

/-- C5 witness: the capacity bound of the concrete `max_users = 1`
leaderboard obtained by two `update_user` calls (adding "a" then "b" with
an identity decay function), where the second call evicts the tail. -/
theorem C5_leaderboard_capacity_witness :
    ((((Leaderboard.initLB Int 1 1).updateUser (fun s _ _ => s) "a" 5 1 0 1).updateUser
        (fun s _ _ => s) "b" 7 1 0 1).skip_list).size ≤
      (((Leaderboard.initLB Int 1 1).updateUser (fun s _ _ => s) "a" 5 1 0 1).updateUser
        (fun s _ _ => s) "b" 7 1 0 1).max_users := by
  have hr : LBReach Int (fun s _ _ => s)
      (((Leaderboard.initLB Int 1 1).updateUser (fun s _ _ => s) "a" 5 1 0 1).updateUser
        (fun s _ _ => s) "b" 7 1 0 1) :=
    LBReach.update _ "b" 7 1 0 1
      (LBReach.update _ "a" 5 1 0 1 (LBReach.init 1 1)
        (by norm_num) (by norm_num))
      (by norm_num) (by norm_num)
  exact (C5_leaderboard_capacity (fun s _ _ => s) _ hr (by decide)).1

/-- C1: the snapshot round-trip loses user ids containing an escaped
character.  `save_to_json` escapes the backslash in the id `a\` and writes
`"a\\"`, but `load_from_json`'s `extract_value` returns the raw text
between the first two quotes without undoing the escapes, so the state
loaded back holds the three-character id `a\\` instead of `a\`: the
multiset of `(user_id, score, last_update)` entries is not reproduced
(the load itself reports no error). -/
theorem C1_roundtrip_loses_escaped_id :
    ((Leaderboard.loadFromJson parseIntSt (fun _ => 1)
        { skip_list := (SkipList.initSL Int 16).upsert
            (String.mk ['a', backslashC]) 5 0 1,
          decay_factor := 1, max_users := 10 }
        (Leaderboard.saveToJson (fun s : Int => (toString s).data)
          { skip_list := (SkipList.initSL Int 16).upsert
              (String.mk ['a', backslashC]) 5 0 1,
            decay_factor := 1, max_users := 10 })).2 = none) ∧
    ((Leaderboard.loadFromJson parseIntSt (fun _ => 1)
        { skip_list := (SkipList.initSL Int 16).upsert
            (String.mk ['a', backslashC]) 5 0 1,
          decay_factor := 1, max_users := 10 }
        (Leaderboard.saveToJson (fun s : Int => (toString s).data)
          { skip_list := (SkipList.initSL Int 16).upsert
              (String.mk ['a', backslashC]) 5 0 1,
            decay_factor := 1, max_users := 10 })).1.skip_list.towers.map
        (fun t => t.user_id)
      = [String.mk ['a', backslashC, backslashC]]) ∧
    (({ skip_list := (SkipList.initSL Int 16).upsert
          (String.mk ['a', backslashC]) 5 0 1,
        decay_factor := 1, max_users := 10 } : Leaderboard Int).skip_list.towers.map
        (fun t => t.user_id)
      = [String.mk ['a', backslashC]]) := by
  refine ⟨?_, ?_, ?_⟩ <;> decide

lemma applyEntries_skip {σ : Type} [LinearOrder σ]
    (parseF : List Char → Option σ) (lvls : Nat → Nat)
    (objs : List (List Char)) (i : Nat) (sl : SkipList σ)
    (h : ∀ obj ∈ objs,
      extractField obj "user_id".data true = none ∨
      extractField obj "score".data false = none ∨
      extractField obj "last_update".data false = none) :
    applyEntries parseF lvls objs i sl = (sl, none) := by
  induction objs generalizing i with
  | nil => rfl
  | cons obj rest ih =>
    have hobj := h obj (List.mem_cons_self obj rest)
    have hrest : ∀ o ∈ rest,
        extractField o "user_id".data true = none ∨
        extractField o "score".data false = none ∨
        extractField o "last_update".data false = none :=
      fun o ho => h o (List.mem_cons_of_mem obj ho)
    show (match extractField obj "user_id".data true,
        extractField obj "score".data false,
        extractField obj "last_update".data false with
      | some user, some score_s, some ts_s =>
        match parseF score_s with
        | none => (sl, some "stod: invalid argument")
        | some score =>
          match parseIntSt ts_s with
          | none => (sl, some "stoll: invalid argument")
          | some ts =>
            applyEntries parseF lvls rest (i + 1)
              (sl.upsert (String.mk user) score ts (lvls i))
      | _, _, _ => applyEntries parseF lvls rest i sl) = (sl, none)
    cases hu : extractField obj "user_id".data true with
    | none =>
      show applyEntries parseF lvls rest i sl = (sl, none)
      exact ih i hrest
    | some u =>
      cases hs : extractField obj "score".data false with
      | none =>
        show applyEntries parseF lvls rest i sl = (sl, none)
        exact ih i hrest
      | some s =>
        cases ht : extractField obj "last_update".data false with
        | none =>
          show applyEntries parseF lvls rest i sl = (sl, none)
          exact ih i hrest
        | some t =>
          rcases hobj with hc | hc | hc
          · rw [hu] at hc
            cases hc
          · rw [hs] at hc
            cases hc
          · rw [ht] at hc
            cases hc

lemma load_shape {σ : Type} [LinearOrder σ] [Zero σ] [One σ]
    (parseF : List Char → Option σ) (lvls : Nat → Nat) (lb : Leaderboard σ)
    (content : List Char)
    (h1 : ∀ v, extractNumericTop content "decay_factor".data = some v →
      ∃ d, parseF v = some d ∧ ¬ d ≤ 0 ∧ ¬ 1 < d)
    (h2 : ∀ v, extractNumericTop content "max_users".data = some v →
      ∃ m, parseNatSt v = some m) :
    ∃ (D : σ) (M : Nat),
      lb.loadFromJson parseF lvls content
        = (⟨(loadEntriesPhase parseF lvls content lb.skip_list.clear).1, D, M⟩,
           (loadEntriesPhase parseF lvls content lb.skip_list.clear).2) := by
  cases hdf : extractNumericTop content "decay_factor".data with
  | none =>
    cases hmu : extractNumericTop content "max_users".data with
    | none =>
      refine ⟨lb.decay_factor, lb.max_users, ?_⟩
      simp only [Leaderboard.loadFromJson, hdf, hmu]
    | some v =>
      obtain ⟨m, hm⟩ := h2 v hmu
      refine ⟨lb.decay_factor, m, ?_⟩
      simp only [Leaderboard.loadFromJson, hdf, hmu, hm]
  | some v =>
    obtain ⟨d, hd, hd1, hd2⟩ := h1 v hdf
    have hcond : ¬(d ≤ 0 ∨ 1 < d) := not_or.mpr ⟨hd1, hd2⟩
    cases hmu : extractNumericTop content "max_users".data with
    | none =>
      refine ⟨d, lb.max_users, ?_⟩
      simp only [Leaderboard.loadFromJson, hdf, hd, hmu, if_neg hcond]
    | some w =>
      obtain ⟨m, hm⟩ := h2 w hmu
      refine ⟨d, m, ?_⟩
      simp only [Leaderboard.loadFromJson, hdf, hd, hmu, hm, if_neg hcond]

/-- C9 counterexample: the entries are not unconditionally cleared once
the file is opened.  Loading the openable content
`{"decay_factor": 2}` into a one-entry leaderboard hits the `TimeDecay`
range validation, whose exception propagates before `skip_list_.clear()`
is reached: the call returns with the error set and the pre-existing
entry still present. -/
theorem C9_entries_survive_early_throw :
    ((Leaderboard.loadFromJson parseIntSt (fun _ => 1)
        { skip_list := (SkipList.initSL Int 16).upsert "u" 3 0 1,
          decay_factor := 1, max_users := 0 }
        "\x7b\"decay_factor\": 2\x7d".data).2
      = some "Decay factor must be in (0, 1]") ∧
    ((Leaderboard.loadFromJson parseIntSt (fun _ => 1)
        { skip_list := (SkipList.initSL Int 16).upsert "u" 3 0 1,
          decay_factor := 1, max_users := 0 }
        "\x7b\"decay_factor\": 2\x7d".data).1.skip_list.towers.map
        (fun t => t.user_id) = ["u"]) := by
  refine ⟨?_, ?_⟩ <;> decide

/-- C9 (amended): provided the numeric header phases do not throw (the
`decay_factor` value, if present, parses into `(0, 1]`, and the
`max_users` value, if present, parses), `load_from_json` clears the
pre-existing entries before parsing the entries array: the resulting
skip list is exactly the entries phase run on the cleared list, so it is
the same for any two starting states with equal `max_levels`; a content
without an `"entries"` key leaves zero entries, and so does one whose
entry objects all lack one of the three required fields. -/
theorem C9_load_clears_before_entries {σ : Type} [LinearOrder σ] [Zero σ]
    [One σ] (parseF : List Char → Option σ) (lvls : Nat → Nat)
    (lb : Leaderboard σ) (content : List Char)
    (h1 : ∀ v, extractNumericTop content "decay_factor".data = some v →
      ∃ d, parseF v = some d ∧ ¬ d ≤ 0 ∧ ¬ 1 < d)
    (h2 : ∀ v, extractNumericTop content "max_users".data = some v →
      ∃ m, parseNatSt v = some m) :
    ((lb.loadFromJson parseF lvls content).1.skip_list
      = (loadEntriesPhase parseF lvls content lb.skip_list.clear).1) ∧
    (∀ lb' : Leaderboard σ,
      lb.skip_list.maxLevels = lb'.skip_list.maxLevels →
      (lb.loadFromJson parseF lvls content).1.skip_list
        = (lb'.loadFromJson parseF lvls content).1.skip_list) ∧
    (findSub content (quoteC :: "entries".data ++ [quoteC]) 0 = none →
      (lb.loadFromJson parseF lvls content).1.skip_list.towers = []) ∧
    (∀ ep ast ae,
      findSub content (quoteC :: "entries".data ++ [quoteC]) 0 = some ep →
      findChar content '[' ep = some ast →
      findChar content ']' ast = some ae →
      (∀ obj ∈ parseObjs (sliceTo content (ast + 1) (some ae))
          ((sliceTo content (ast + 1) (some ae)).length + 1) 0,
        extractField obj "user_id".data true = none ∨
        extractField obj "score".data false = none ∨
        extractField obj "last_update".data false = none) →
      (lb.loadFromJson parseF lvls content).1.skip_list.towers = []) := by
  obtain ⟨D, M, hload⟩ := load_shape parseF lvls lb content h1 h2
  have hmain : (lb.loadFromJson parseF lvls content).1.skip_list
      = (loadEntriesPhase parseF lvls content lb.skip_list.clear).1 := by
    rw [hload]
  refine ⟨hmain, ?_, ?_, ?_⟩
  · intro lb' hml
    obtain ⟨D', M', hload'⟩ := load_shape parseF lvls lb' content h1 h2
    have hclear : lb.skip_list.clear = lb'.skip_list.clear := by
      simp only [SkipList.clear, hml]
    rw [hmain, hload', hclear]
  · intro hfind
    rw [hmain]
    show (loadEntriesPhase parseF lvls content lb.skip_list.clear).1.towers = []
    simp only [loadEntriesPhase, hfind]
    rfl
  · intro ep ast ae hfind hlb hrb hall
    rw [hmain]
    show (loadEntriesPhase parseF lvls content lb.skip_list.clear).1.towers = []
    simp only [loadEntriesPhase, hfind, hlb, hrb]
    rw [applyEntries_skip parseF lvls _ 0 _ hall]
    rfl

/-- C9 witness: loading the content `{}` (no numeric keys, no entries
key) into a one-entry leaderboard leaves the skip list with zero
entries. -/
theorem C9_load_clears_before_entries_witness :
    ((Leaderboard.loadFromJson parseIntSt (fun _ => 1)
        { skip_list := (SkipList.initSL Int 16).upsert "u" 3 0 1,
          decay_factor := 1, max_users := 0 }
        "\x7b\x7d".data).1.skip_list.towers = []) := by
  have h := C9_load_clears_before_entries parseIntSt (fun _ => 1)
    { skip_list := (SkipList.initSL Int 16).upsert "u" 3 0 1,
      decay_factor := 1, max_users := 0 }
    "\x7b\x7d".data
    (by
      intro v hv
      rw [show extractNumericTop "\x7b\x7d".data "decay_factor".data = none
        from by decide] at hv
      exact Option.noConfusion hv)
    (by
      intro v hv
      rw [show extractNumericTop "\x7b\x7d".data "max_users".data = none
        from by decide] at hv
      exact Option.noConfusion hv)
  exact h.2.2.1 (by decide)

end EngageHub
